import Mathlib

/-!
Verification of the indexed priority queue (PriorityQueue.h) and the
weighted-graph query engine (Graph.h) of this repository.

The C++ sources are shallowly embedded: `std::vector<T>` becomes `List T`,
`std::unordered_map<T, size_t>` becomes an association list `List (T × Nat)`
(with `operator[]` modelled faithfully, including its insert-default-on-absent
behaviour), `size_t` indices become `Nat`, the generic `WeightType` is
instantiated at `Int`, and C++ `throw` becomes `Except.error`.  Loops are
modelled by structurally recursive functions with an explicit fuel argument
chosen large enough to cover the worst case of the corresponding C++ loop, so
that every definition evaluates by kernel reduction.
-/

set_option maxHeartbeats 4000000

namespace PQModel

/-- Model of `std::unordered_map::find`: first matching entry, if any. -/
def mapFind {T : Type} [DecidableEq T] : List (T × Nat) → T → Option Nat
  | [], _ => none
  | (a, p) :: rest, k => if a = k then some p else mapFind rest k

/-- Model of assignment through `std::unordered_map::operator[]`:
replace the entry for the key if present, otherwise append it. -/
def mapInsert {T : Type} [DecidableEq T] : List (T × Nat) → T → Nat → List (T × Nat)
  | [], k, v => [(k, v)]
  | (a, p) :: rest, k, v =>
    if a = k then (k, v) :: rest else (a, p) :: mapInsert rest k v

/-- Model of `std::unordered_map::erase(key)`. -/
def mapErase {T : Type} [DecidableEq T] : List (T × Nat) → T → List (T × Nat)
  | [], _ => []
  | (a, p) :: rest, k => if a = k then rest else (a, p) :: mapErase rest k

/-- Model of a read through `std::unordered_map::operator[]`: returns the
mapped value and the possibly-extended map (absent keys are inserted with the
value-initialised mapped value `0`, exactly as `operator[]` does). -/
def mapGetRef {T : Type} [DecidableEq T] (m : List (T × Nat)) (k : T) :
    Nat × List (T × Nat) :=
  match mapFind m k with
  | some p => (p, m)
  | none => (0, mapInsert m k 0)

/-- State of `PriorityQueue<T>` (PriorityQueue.h).  The comparison function
`mComp` is set once at construction and never mutated, so it is passed as an
explicit argument to the operations instead of being stored. -/
structure PriorityQueue (T : Type) where
  mData : List T
  mValToPos : List (T × Nat)
  mLock : Nat
deriving DecidableEq, Repr

/-- `PriorityQueue<T>::GetParentPosition`. -/
def GetParentPosition (child : Nat) : Nat := (child - 1) / 2

/-- `PriorityQueue<T>::GetLeftChildPosition`. -/
def GetLeftChildPosition (parent : Nat) : Nat := parent * 2 + 1

/-- `PriorityQueue<T>::GetRightChildPosition`. -/
def GetRightChildPosition (parent : Nat) : Nat := parent * 2 + 2

/-- `PriorityQueue<T>::Swap(e1, e2)`: swaps `mData[e1]` with `mData[e2]` and the
two corresponding `mValToPos` entries (obtained through `operator[]`). -/
def Swap {T : Type} [DecidableEq T] [Inhabited T]
    (q : PriorityQueue T) (e1 e2 : Nat) : PriorityQueue T :=
  let v1 := q.mData.getD e1 default
  let v2 := q.mData.getD e2 default
  let r1 := mapGetRef q.mValToPos v1
  let r2 := mapGetRef r1.2 v2
  let m3 := mapInsert (mapInsert r2.2 v1 r2.1) v2 r1.1
  ⟨(q.mData.set e1 v2).set e2 v1, m3, q.mLock⟩

/-- The child `UpdatePriority`'s down-phase swaps with
(`higherPriorityChildPos` in the source): the left child when the right one is
out of bounds, otherwise the right child exactly when `mComp(left, right)`. -/
def ChooseChild {T : Type} [Inhabited T] (comp : T → T → Bool)
    (data : List T) (ePos : Nat) : Nat :=
  if GetRightChildPosition ePos ≥ data.length then GetLeftChildPosition ePos
  else if comp (data.getD (GetLeftChildPosition ePos) default)
      (data.getD (GetRightChildPosition ePos) default) then
    GetRightChildPosition ePos
  else GetLeftChildPosition ePos

/-- The first (`// Bubble it up`) loop of `PriorityQueue<T>::UpdatePriority`,
returning the state together with the final value of `ePos`.  The loop strictly
decreases `ePos`, so fuel `ePos + 1` covers every iteration. -/
def BubbleUpF {T : Type} [DecidableEq T] [Inhabited T] :
    Nat → (T → T → Bool) → PriorityQueue T → Nat → PriorityQueue T × Nat
  | 0, _, q, ePos => (q, ePos)
  | fuel + 1, comp, q, ePos =>
    if ePos ≠ 0 ∧ comp (q.mData.getD (GetParentPosition ePos) default)
        (q.mData.getD ePos default) then
      BubbleUpF fuel comp (Swap q (GetParentPosition ePos) ePos) (GetParentPosition ePos)
    else (q, ePos)

/-- The second (`// Or bubble down`) loop of `PriorityQueue<T>::UpdatePriority`.
The loop strictly increases `ePos` below `mData.size()`, so fuel
`mData.length + 1` covers every iteration. -/
def BubbleDownF {T : Type} [DecidableEq T] [Inhabited T] :
    Nat → (T → T → Bool) → PriorityQueue T → Nat → PriorityQueue T
  | 0, _, q, _ => q
  | fuel + 1, comp, q, ePos =>
    if GetLeftChildPosition ePos ≥ q.mData.length then q
    else if comp (q.mData.getD ePos default)
        (q.mData.getD (ChooseChild comp q.mData ePos) default) then
      BubbleDownF fuel comp (Swap q ePos (ChooseChild comp q.mData ePos))
        (ChooseChild comp q.mData ePos)
    else q

/-- `PriorityQueue<T>::UpdatePriority(ePos)`: the bubble-up loop followed
(unconditionally, as in the source) by the bubble-down loop, the latter
starting from the final position reached by the former. -/
def UpdatePriority {T : Type} [DecidableEq T] [Inhabited T]
    (comp : T → T → Bool) (q : PriorityQueue T) (ePos : Nat) : PriorityQueue T :=
  let r := BubbleUpF (ePos + 1) comp q ePos
  BubbleDownF (r.1.mData.length + 1) comp r.1 r.2

/-- `PriorityQueue<T>::Empty()`. -/
def Empty {T : Type} (q : PriorityQueue T) : Bool := q.mData.isEmpty

/-- `PriorityQueue<T>::Add(e)`.  Throws (models `throw;`) when a handle is
outstanding; silently returns when the element is already present. -/
def Add {T : Type} [DecidableEq T] [Inhabited T] (comp : T → T → Bool)
    (q : PriorityQueue T) (e : T) : Except Unit (PriorityQueue T) :=
  if q.mLock ≥ 1 then Except.error ()
  else if (mapFind q.mValToPos e).isSome then Except.ok q
  else
    let ePos := q.mData.length
    let q1 : PriorityQueue T := ⟨q.mData ++ [e], mapInsert q.mValToPos e ePos, q.mLock⟩
    Except.ok (UpdatePriority comp q1 ePos)

/-- `PriorityQueue<T>::Remove()`.  Throws when a handle is outstanding; when
`mValToPos` is empty it silently returns a value-initialised `T()` and leaves
the queue untouched (the source has no empty-queue error). -/
def Remove {T : Type} [DecidableEq T] [Inhabited T] (comp : T → T → Bool)
    (q : PriorityQueue T) : Except Unit (T × PriorityQueue T) :=
  if q.mLock ≥ 1 then Except.error ()
  else if q.mValToPos.isEmpty then Except.ok (default, q)
  else
    let q1 := Swap q 0 (q.mData.length - 1)
    let ret := (q1.mData.getLast?).getD default
    let q2 : PriorityQueue T := ⟨q1.mData.dropLast, mapErase q1.mValToPos ret, q1.mLock⟩
    Except.ok (ret, UpdatePriority comp q2 0)

/-- `PriorityQueue<T>::Peek()`: returns `mData.front()` with no emptiness
check; on an empty queue the C++ access is out of bounds, modelled by `none`. -/
def Peek {T : Type} (q : PriorityQueue T) : Option T := q.mData.head?

/-- `PriorityQueue<T>::Clear()`.  Throws when a handle is outstanding. -/
def Clear {T : Type} (q : PriorityQueue T) : Except Unit (PriorityQueue T) :=
  if q.mLock ≥ 1 then Except.error ()
  else Except.ok ⟨[], [], q.mLock⟩

/-- `PriorityQueue<T>::GetElementHandle(e)` followed by the `ElementHandle`
constructor: reads `mValToPos[e]` through `operator[]` (inserting slot `0` for
an absent value), increments `mLock`, and throws when the incremented lock
count exceeds one.  On success it yields the handle's `mThisPos` and the new
queue state. -/
def GetElementHandle {T : Type} [DecidableEq T] (q : PriorityQueue T) (e : T) :
    Except Unit (Nat × PriorityQueue T) :=
  let r := mapGetRef q.mValToPos e
  let q1 : PriorityQueue T := ⟨q.mData, r.2, q.mLock + 1⟩
  if q1.mLock > 1 then Except.error () else Except.ok (r.1, q1)

/-- `PriorityQueue<T>::ElementHandle::Update(newVal)` for a handle whose
`mThisPos` is `pos`: fails returning `false` when `newVal` is already present;
otherwise erases the old value from the map, writes `newVal` at `pos` in both
structures, and restores the heap with `UpdatePriority`.  (The handle's own
`mThisPos` is then refreshed from the map; the queue state returned here is
complete, and the refreshed position equals `mapFind` of `newVal` in it.) -/
def Update {T : Type} [DecidableEq T] [Inhabited T] (comp : T → T → Bool)
    (q : PriorityQueue T) (pos : Nat) (newVal : T) : Bool × PriorityQueue T :=
  if (mapFind q.mValToPos newVal).isSome then (false, q)
  else
    let oldVal := q.mData.getD pos default
    let m1 := mapErase q.mValToPos oldVal
    let q1 : PriorityQueue T := ⟨q.mData.set pos newVal, mapInsert m1 newVal pos, q.mLock⟩
    (true, UpdatePriority comp q1 pos)

/-- The default comparator `std::less` at the element type used in tests. -/
def natLess : Nat → Nat → Bool := fun a b => a < b

/-- Claim C9's description of the down-phase child choice: the right child wins
ties, mirroring a strict `>` comparison. -/
def ChooseChildClaimed {T : Type} [Inhabited T] (comp : T → T → Bool)
    (data : List T) (ePos : Nat) : Nat :=
  if GetRightChildPosition ePos ≥ data.length then GetLeftChildPosition ePos
  else if comp (data.getD (GetRightChildPosition ePos) default)
      (data.getD (GetLeftChildPosition ePos) default) then
    GetLeftChildPosition ePos
  else GetRightChildPosition ePos

/-- Down-phase as described by claim C9 (right child wins ties). -/
def BubbleDownClaimedF {T : Type} [DecidableEq T] [Inhabited T] :
    Nat → (T → T → Bool) → PriorityQueue T → Nat → PriorityQueue T
  | 0, _, q, _ => q
  | fuel + 1, comp, q, ePos =>
    if GetLeftChildPosition ePos ≥ q.mData.length then q
    else if comp (q.mData.getD ePos default)
        (q.mData.getD (ChooseChildClaimed comp q.mData ePos) default) then
      BubbleDownClaimedF fuel comp (Swap q ePos (ChooseChildClaimed comp q.mData ePos))
        (ChooseChildClaimed comp q.mData ePos)
    else q

/-- Restore-priority as described by claim C9: bubble up; only if no upward
swap occurred (the position did not move), bubble down with the right child
winning ties. -/
def UpdatePriorityClaimed {T : Type} [DecidableEq T] [Inhabited T]
    (comp : T → T → Bool) (q : PriorityQueue T) (ePos : Nat) : PriorityQueue T :=
  let r := BubbleUpF (ePos + 1) comp q ePos
  if r.2 = ePos then BubbleDownClaimedF (r.1.mData.length + 1) comp r.1 r.2
  else r.1

/-- Amended down-phase child choice, following the source: with both children
in bounds the right child is chosen exactly when `mComp(left, right)` holds, so
the LEFT child wins ties. -/
def ChooseChildAmended {T : Type} [Inhabited T] (comp : T → T → Bool)
    (data : List T) (ePos : Nat) : Nat :=
  if GetRightChildPosition ePos < data.length then
    (if comp (data.getD (GetLeftChildPosition ePos) default)
        (data.getD (GetRightChildPosition ePos) default) then
      GetRightChildPosition ePos
    else GetLeftChildPosition ePos)
  else GetLeftChildPosition ePos

/-- Amended down-phase: repeatedly swap with the chosen child while it
outranks the current slot. -/
def BubbleDownAmendedF {T : Type} [DecidableEq T] [Inhabited T] :
    Nat → (T → T → Bool) → PriorityQueue T → Nat → PriorityQueue T
  | 0, _, q, _ => q
  | fuel + 1, comp, q, ePos =>
    if GetLeftChildPosition ePos ≥ q.mData.length then q
    else if comp (q.mData.getD ePos default)
        (q.mData.getD (ChooseChildAmended comp q.mData ePos) default) then
      BubbleDownAmendedF fuel comp (Swap q ePos (ChooseChildAmended comp q.mData ePos))
        (ChooseChildAmended comp q.mData ePos)
    else q

/-- Amended restore-priority (claim C9 amended): bubble up while the parent is
lower priority, then ALWAYS proceed to the down-phase from the resulting slot,
with the left child winning down-phase ties. -/
def UpdatePriorityAmended {T : Type} [DecidableEq T] [Inhabited T]
    (comp : T → T → Bool) (q : PriorityQueue T) (ePos : Nat) : PriorityQueue T :=
  let r := BubbleUpF (ePos + 1) comp q ePos
  BubbleDownAmendedF (r.1.mData.length + 1) comp r.1 r.2

/-- The heap-order invariant of claim C3: the parent of every non-root slot is
never lower priority (`mComp`-smaller) than the element at that slot. -/
def HeapInvariant {T : Type} [Inhabited T] (comp : T → T → Bool) (data : List T) : Prop :=
  ∀ i, i < data.length → i ≠ 0 →
    comp (data.getD (GetParentPosition i) default) (data.getD i default) = false

/-- The position-map/heap correspondence: every slot's value is mapped to that
slot, and every map entry points at a valid slot actually holding its key. -/
def PosMapSynced {T : Type} [DecidableEq T] [Inhabited T]
    (data : List T) (m : List (T × Nat)) : Prop :=
  (∀ i, i < data.length → mapFind m (data.getD i default) = some i) ∧
  (∀ v p, mapFind m v = some p → p < data.length ∧ data.getD p default = v)

/-- Lawfulness of the caller-supplied comparator: a strict weak order
(irreflexive, transitive, with transitive complement), as the C++ standard
requires of comparators handed to ordering algorithms. -/
def CompLawful {T : Type} (comp : T → T → Bool) : Prop :=
  (∀ a, comp a a = false) ∧
  (∀ a b c, comp a b = true → comp b c = true → comp a c = true) ∧
  (∀ a b c, comp a b = false → comp b c = false → comp a c = false)

/-- Queue states reachable by legitimate use of the public interface from a
freshly constructed queue: `Add`, `Remove`, `Clear`, and a scoped
`GetElementHandle` on a present value followed by `ElementHandle::Update` and
handle destruction (the lock returns to zero, so the composite keeps only the
`Update` state change). -/
inductive Reachable {T : Type} [DecidableEq T] [Inhabited T]
    (comp : T → T → Bool) : PriorityQueue T → Prop
  | init : Reachable comp ⟨[], [], 0⟩
  | add (q : PriorityQueue T) (e : T) (q1 : PriorityQueue T) :
      Reachable comp q → Add comp q e = Except.ok q1 → Reachable comp q1
  | remove (q : PriorityQueue T) (v : T) (q1 : PriorityQueue T) :
      Reachable comp q → Remove comp q = Except.ok (v, q1) → Reachable comp q1
  | clearStep (q : PriorityQueue T) (q1 : PriorityQueue T) :
      Reachable comp q → Clear q = Except.ok q1 → Reachable comp q1
  | update (q : PriorityQueue T) (v : T) (pos : Nat) (newVal : T) (b : Bool)
      (q1 : PriorityQueue T) :
      Reachable comp q → mapFind q.mValToPos v = some pos →
      Update comp q pos newVal = (b, q1) → Reachable comp q1

end PQModel

namespace PQModel

/-- Claim C6 — counterexample.  On an empty queue, `Remove` does not fail with
an empty-queue error: it silently returns the value-initialised `T()` and the
unchanged queue.  This falsifies the claim that extraction on an empty queue
fails with `EmptyQueueError` and never silently returns a value. -/
theorem c6_counterexample :
    Remove natLess (⟨[], [], 0⟩ : PriorityQueue Nat) =
      Except.ok (0, (⟨[], [], 0⟩ : PriorityQueue Nat)) ∧
    Remove natLess (⟨[], [], 0⟩ : PriorityQueue Nat) ≠ Except.error () := by
  constructor
  · rfl
  · intro h
    simp [Remove, natLess] at h

/-- Claim C6 — amended.  `Remove` on a queue whose position map is empty (no
outstanding handle) silently returns the default value and the unchanged
queue, raising no error; `Peek` performs no emptiness check at all and on an
empty queue simply accesses the front element out of bounds (modelled as
`none`), rather than failing with an `EmptyQueueError`. -/
theorem c6_amended {T : Type} [DecidableEq T] [Inhabited T]
    (comp : T → T → Bool) (q : PriorityQueue T)
    (h1 : q.mValToPos = []) (h2 : q.mLock = 0) :
    Remove comp q = Except.ok (default, q) ∧
    (q.mData = [] → Peek q = none) := by
  constructor
  · simp [Remove, h1, h2]
  · intro h
    simp [Peek, h]

/-- Witness for `c6_amended` at a concrete empty queue. -/
theorem c6_amended_witness :
    Remove natLess (⟨[], [], 0⟩ : PriorityQueue Nat) =
      Except.ok (0, (⟨[], [], 0⟩ : PriorityQueue Nat)) ∧
    Peek (⟨[], [], 0⟩ : PriorityQueue Nat) = none := by
  have h := c6_amended natLess (⟨[], [], 0⟩ : PriorityQueue Nat) rfl rfl
  exact ⟨h.1, h.2 rfl⟩

/-- Claim C7 — confirmed.  With a handle outstanding (`mLock ≥ 1`), requesting
a second `ElementHandle` fails (the constructor throws) rather than returning
a usable handle, and every structural mutation (`Add`, `Remove`, `Clear`)
fails loudly; each checks the lock before touching `mData` or `mValToPos`, so
the failing call modifies neither. -/
theorem c7_handle_exclusivity {T : Type} [DecidableEq T] [Inhabited T]
    (comp : T → T → Bool) (q : PriorityQueue T) (e : T) (hL : 1 ≤ q.mLock) :
    GetElementHandle q e = Except.error () ∧
    Add comp q e = Except.error () ∧
    Remove comp q = Except.error () ∧
    Clear q = Except.error () := by
  refine ⟨?_, ?_, ?_, ?_⟩
  · simp only [GetElementHandle]
    have : q.mLock + 1 > 1 := by omega
    simp [this]
  · simp [Add, hL]
  · simp [Remove, hL]
  · simp [Clear, hL]

/-- Witness for `c7_handle_exclusivity` at a concrete locked queue. -/
theorem c7_handle_exclusivity_witness :
    GetElementHandle (⟨[5], [(5, 0)], 1⟩ : PriorityQueue Nat) 7 = Except.error () ∧
    Add natLess (⟨[5], [(5, 0)], 1⟩ : PriorityQueue Nat) 7 = Except.error () ∧
    Remove natLess (⟨[5], [(5, 0)], 1⟩ : PriorityQueue Nat) = Except.error () ∧
    Clear (⟨[5], [(5, 0)], 1⟩ : PriorityQueue Nat) = Except.error () :=
  c7_handle_exclusivity natLess (⟨[5], [(5, 0)], 1⟩ : PriorityQueue Nat) 7 (by decide)

/-- Claim C8 — confirmed.  `Add` of a key already present in the map is a
silent no-op returning the queue unchanged, and `ElementHandle::Update` to a
key already present returns `false` and leaves the whole queue state
unchanged. -/
theorem c8_duplicate_policy {T : Type} [DecidableEq T] [Inhabited T]
    (comp : T → T → Bool) (q : PriorityQueue T) (e newVal : T) (pos : Nat)
    (h1 : q.mLock = 0)
    (h2 : (mapFind q.mValToPos e).isSome)
    (h3 : (mapFind q.mValToPos newVal).isSome) :
    Add comp q e = Except.ok q ∧
    Update comp q pos newVal = (false, q) := by
  constructor
  · simp [Add, h1, h2]
  · simp [Update, h3]

/-- Witness for `c8_duplicate_policy` at a concrete queue. -/
theorem c8_duplicate_policy_witness :
    Add natLess (⟨[9, 4], [(9, 0), (4, 1)], 0⟩ : PriorityQueue Nat) 4 =
      Except.ok (⟨[9, 4], [(9, 0), (4, 1)], 0⟩ : PriorityQueue Nat) ∧
    Update natLess (⟨[9, 4], [(9, 0), (4, 1)], 0⟩ : PriorityQueue Nat) 1 9 =
      (false, (⟨[9, 4], [(9, 0), (4, 1)], 0⟩ : PriorityQueue Nat)) :=
  c8_duplicate_policy natLess (⟨[9, 4], [(9, 0), (4, 1)], 0⟩ : PriorityQueue Nat)
    4 9 1 rfl (by decide) (by decide)

/-- Claim C10 — confirmed.  `GetElementHandle` on a value absent from the map
(with no handle outstanding) raises no error: reading `mValToPos[e]` through
`operator[]` inserts the entry `e ↦ 0`, and the call returns a handle bound to
slot `0`; when `e` is not in the heap array this breaks the map-to-heap
direction of the position-map correspondence. -/
theorem c10_absent_handle {T : Type} [DecidableEq T] [Inhabited T]
    (q : PriorityQueue T) (e : T)
    (h1 : mapFind q.mValToPos e = none) (h2 : q.mLock = 0) :
    GetElementHandle q e =
      Except.ok (0, ⟨q.mData, mapInsert q.mValToPos e 0, 1⟩) ∧
    mapFind (mapInsert q.mValToPos e 0) e = some 0 ∧
    (e ∉ q.mData → ¬ PosMapSynced q.mData (mapInsert q.mValToPos e 0)) := by
  refine ⟨?_, ?_, ?_⟩
  · simp [GetElementHandle, mapGetRef, h1, h2]
  · clear h1 h2
    induction q.mValToPos with
    | nil => simp [mapInsert, mapFind]
    | cons hd tl ih =>
      by_cases hk : hd.1 = e
      · simp [mapInsert, mapFind, hk]
      · simpa [mapInsert, mapFind, hk] using ih
  · intro hmem hsync
    have hfind : mapFind (mapInsert q.mValToPos e 0) e = some 0 := by
      clear h1 h2 hsync
      induction q.mValToPos with
      | nil => simp [mapInsert, mapFind]
      | cons hd tl ih =>
        by_cases hk : hd.1 = e
        · simp [mapInsert, mapFind, hk]
        · simpa [mapInsert, mapFind, hk] using ih
    rcases hsync.2 e 0 hfind with ⟨hlt, hv⟩
    have hmm : q.mData.getD 0 default ∈ q.mData := by
      rw [List.getD_eq_getElem _ _ hlt]
      exact List.getElem_mem hlt
    exact hmem (hv ▸ hmm)

/-- Witness for `c10_absent_handle` at a concrete queue and absent value. -/
theorem c10_absent_handle_witness :
    GetElementHandle (⟨[3], [(3, 0)], 0⟩ : PriorityQueue Nat) 7 =
      Except.ok (0, (⟨[3], [(3, 0), (7, 0)], 1⟩ : PriorityQueue Nat)) ∧
    ¬ PosMapSynced [3] [(3, 0), (7, 0)] := by
  have h := c10_absent_handle (⟨[3], [(3, 0)], 0⟩ : PriorityQueue Nat) 7 rfl rfl
  refine ⟨h.1, ?_⟩
  have h3 := h.2.2 (by decide)
  simpa [mapInsert] using h3

/-- Claim C9 — counterexample.  Starting `UpdatePriority` from slot 1 of the
heap `[1, 5, 9]` (max-heap comparator `<`), the source performs an upward swap
AND afterwards a downward swap, ending with `[9, 1, 5]`; the claimed behaviour
(bubble down only if no upward swap occurred) would stop at `[5, 1, 9]`.  So
the claim is false of the code at this input. -/
theorem c9_counterexample :
    UpdatePriority natLess (⟨[1, 5, 9], [(1, 0), (5, 1), (9, 2)], 0⟩ : PriorityQueue Nat) 1 =
      (⟨[9, 1, 5], [(1, 1), (5, 2), (9, 0)], 0⟩ : PriorityQueue Nat) ∧
    UpdatePriorityClaimed natLess
        (⟨[1, 5, 9], [(1, 0), (5, 1), (9, 2)], 0⟩ : PriorityQueue Nat) 1 =
      (⟨[5, 1, 9], [(1, 1), (5, 0), (9, 2)], 0⟩ : PriorityQueue Nat) ∧
    UpdatePriority natLess (⟨[1, 5, 9], [(1, 0), (5, 1), (9, 2)], 0⟩ : PriorityQueue Nat) 1 ≠
      UpdatePriorityClaimed natLess
        (⟨[1, 5, 9], [(1, 0), (5, 1), (9, 2)], 0⟩ : PriorityQueue Nat) 1 := by
  refine ⟨by decide, by decide, by decide⟩

/-- Claim C9 — amended.  `UpdatePriority` first bubbles upward while the parent
is lower priority than the child; then it ALWAYS proceeds to the down-phase
from the resulting slot (even when upward swaps occurred), repeatedly swapping
with the higher-priority child, where on equal children the LEFT child is the
one chosen (the source picks the right child exactly when `mComp(left, right)`
holds strictly); the down-phase stops when no child outranks the current slot
or no children remain. -/
theorem c9_amended {T : Type} [DecidableEq T] [Inhabited T]
    (comp : T → T → Bool) (q : PriorityQueue T) (ePos : Nat) :
    UpdatePriority comp q ePos = UpdatePriorityAmended comp q ePos := by
  have hChoose : ∀ (data : List T) (p : Nat),
      ChooseChild comp data p = ChooseChildAmended comp data p := by
    intro data p
    by_cases h : GetRightChildPosition p ≥ data.length
    · have h2 : ¬ GetRightChildPosition p < data.length := by omega
      simp [ChooseChild, ChooseChildAmended, h, h2]
    · have h2 : GetRightChildPosition p < data.length := by omega
      simp [ChooseChild, ChooseChildAmended, h, h2]
  have hDown : ∀ (fuel : Nat) (q1 : PriorityQueue T) (p : Nat),
      BubbleDownF fuel comp q1 p = BubbleDownAmendedF fuel comp q1 p := by
    intro fuel
    induction fuel with
    | zero => intro q1 p; rfl
    | succ n ih =>
      intro q1 p
      simp only [BubbleDownF, BubbleDownAmendedF, hChoose]
      split
      · rfl
      · split
        · exact ih _ _
        · rfl
  simp only [UpdatePriority, UpdatePriorityAmended, hDown]

end PQModel

namespace GraphModel

/-- `Edge<WeightType>` (Graph.h) with `WeightType` instantiated at `Int`. -/
structure Edge where
  v1 : Nat
  v2 : Nat
  w : Int
deriving DecidableEq, Repr

/-- State of `Graph<VertexType, WeightType>` (Graph.h) with `WeightType`
instantiated at `Int`; `mMinValue`/`mMaxValue` are the caller-supplied
sentinels from the constructor. -/
structure Graph (V : Type) where
  mVertices : List V
  mEdges : List Edge
  mEdgesCompact : List Int
  mMinValue : Int
  mMaxValue : Int
deriving DecidableEq, Repr

/-- Fuel-bounded count of the binary digits of `v` beyond 24: the number of
low bits an IEEE-754 single-precision `float` drops when `v` is converted to
it.  Fuel 64 covers every value below `2 ^ 64`, which bounds all inputs
below (they are 64-bit machine quantities). -/
def fexp : Nat → Nat → Nat
  | 0, _ => 0
  | fuel + 1, v => if v ≤ 2 ^ 24 then 0 else fexp fuel (v / 2) + 1

/-- Round-to-nearest, ties-to-even, of a natural number to 24 significant
bits: the value an IEEE-754 binary32 `float` holds after an integer is
converted to it. -/
def rnd24 (v : Nat) : Nat :=
  let e := fexp 64 v
  let q := v / 2 ^ e
  let r := v % 2 ^ e
  if r < 2 ^ (e - 1) then q * 2 ^ e
  else if 2 ^ (e - 1) < r then (q + 1) * 2 ^ e
  else (if q % 2 = 0 then q else q + 1) * 2 ^ e

/-- IEEE-754 binary32 subtraction of two integer-valued operands: the exact
difference, rounded once to 24 significant bits (round-to-nearest,
ties-to-even; the tie rule is irrelevant below because every rounded value
is exact in the claims' domains). -/
def fsub24 (a b : Nat) : Int :=
  if b ≤ a then Int.ofNat (rnd24 (a - b)) else -Int.ofNat (rnd24 (b - a))

/-- `Graph::GetIndexForCompact(x, y)` where `n` stands for
`mVertices.size()`, with machine semantics on a standard platform (32-bit
`unsigned int`, 64-bit `size_t`, IEEE-754 binary32 `float`).  The source
returns `(unsigned int)(x - y - 1 + mVertices.size()*y - y*(y+1)*0.5f)`:
`x - y - 1` wraps modulo `2^32`; `mVertices.size()*y` and the sum with it
are `size_t` arithmetic modulo `2^64`; `y*(y+1)` wraps modulo `2^32` and is
converted to `float` (rounded to 24 significant bits) before the exact
halving by `0.5f`; the integer sum is likewise converted to `float`, and
the subtraction rounds once more.  The final truncating cast is
value-preserving because the rounded difference is an integer (the cast is
undefined behaviour outside `[0, 2^32)`; the theorems below stay inside
it). -/
def GetIndexForCompact (n x y : Nat) : Nat :=
  (fsub24 (rnd24 (((x + 2 ^ 33 - y - 1) % 2 ^ 32 + n * y) % 2 ^ 64))
    (rnd24 ((y * (y + 1)) % 2 ^ 32) / 2)).toNat

/-- The loop body of `Graph::UpdateEdges`: write one edge's weight at its
compact index. -/
def writeEdge (n : Nat) (acc : List Int) (e : Edge) : List Int :=
  acc.set (GetIndexForCompact n e.v2 e.v1) e.w

/-- `Graph::UpdateEdges()`: resize the compact store to
`(unsigned int)(mVertices.size()*(mVertices.size()-1)*0.5f)` — the 64-bit
product converted to `float` (24-bit rounding) and halved exactly — fill it
with `mMaxValue`, then write every edge's weight at
`GetIndexForCompact(v2, v1)`.  (The rounded product is even, so the halving
and the truncating cast are exact; the cast is undefined behaviour at or
above `2^32`, far outside the theorems' domains.) -/
def UpdateEdges {V : Type} (g : Graph V) : Graph V :=
  let n := g.mVertices.length
  let base := List.replicate (rnd24 ((n * (n - 1)) % 2 ^ 64) / 2) g.mMaxValue
  ⟨g.mVertices, g.mEdges, g.mEdges.foldl (writeEdge n) base, g.mMinValue, g.mMaxValue⟩

/-- `Graph::AddVertex`. -/
def AddVertex {V : Type} (g : Graph V) (v : V) : Graph V :=
  ⟨g.mVertices ++ [v], g.mEdges, g.mEdgesCompact, g.mMinValue, g.mMaxValue⟩

/-- Exactness of the triangular division: `y*(y+1)` is even. -/
theorem fexp_zero (f v : Nat) (h : v ≤ 2 ^ 24) : fexp (f + 1) v = 0 := by
  simp only [fexp]
  rw [if_pos h]

theorem rnd24_exact (v : Nat) (h : v ≤ 2 ^ 24) : rnd24 v = v := by
  simp only [rnd24]
  rw [show fexp 64 v = 0 from fexp_zero 63 v h]
  simp [Nat.mod_one]

/-- Below 4097 vertices every quantity in the float index computation stays
within the 24 significant bits of a `float`, so the machine index agrees
with the exact closed formula. -/
theorem GetIndexForCompact_exact (n x y : Nat) (h1 : y < x) (h2 : x < n)
    (hn : n ≤ 4096) :
    GetIndexForCompact n x y = x - y - 1 + n * y - y * (y + 1) / 2 := by
  have hny : n * y ≤ 4096 * 4094 := Nat.mul_le_mul hn (by omega)
  have hyy : y * (y + 1) ≤ 4094 * 4095 := Nat.mul_le_mul (by omega) (by omega)
  have hwrap : (x + 2 ^ 33 - y - 1) % 2 ^ 32 = x - y - 1 := by omega
  have hA : ((x + 2 ^ 33 - y - 1) % 2 ^ 32 + n * y) % 2 ^ 64 =
      x - y - 1 + n * y := by
    rw [hwrap]
    omega
  have hB : (y * (y + 1)) % 2 ^ 32 = y * (y + 1) := by omega
  have hAle : x - y - 1 + n * y ≤ 2 ^ 24 := by omega
  have hBle : y * (y + 1) ≤ 2 ^ 24 := by omega
  unfold GetIndexForCompact
  rw [hA, hB, rnd24_exact _ hAle, rnd24_exact _ hBle]
  have hble : y * (y + 1) / 2 ≤ x - y - 1 + n * y := by
    have h3 : y * (y + 1) ≤ y * n := Nat.mul_le_mul_left y (by omega)
    have h4 : y * (y + 1) / 2 ≤ y * n := le_trans (Nat.div_le_self _ _) h3
    have h5 : y * n = n * y := Nat.mul_comm y n
    omega
  unfold fsub24
  rw [if_pos hble, rnd24_exact _ (by omega)]
  rfl

/-- Below 4097 vertices the float-computed compact-store size agrees with
the exact `n*(n-1)/2`. -/
theorem UpdateEdges_size_exact (n : Nat) (hn : n ≤ 4096) :
    rnd24 ((n * (n - 1)) % 2 ^ 64) / 2 = n * (n - 1) / 2 := by
  have h1 : n * (n - 1) ≤ 4096 * 4095 := Nat.mul_le_mul hn (by omega)
  have h2 : (n * (n - 1)) % 2 ^ 64 = n * (n - 1) := by omega
  rw [h2, rnd24_exact _ (by omega)]

theorem tri_div_exact (y : Nat) : 2 * (y * (y + 1) / 2) = y * (y + 1) := by
  have h : 2 ∣ y * (y + 1) := (Nat.even_mul_succ_self y).two_dvd
  omega

/-- Cumulative row offset of the compact store: the slot where row `y`
begins.  Proof-internal abbreviation. -/
def triSlot (n y : Nat) : Nat := n * y - y * (y + 1) / 2

theorem idx_eq_triSlot (n x y : Nat) (h1 : y < x) (h2 : x < n)
    (hn : n ≤ 4096) :
    GetIndexForCompact n x y = triSlot n y + (x - y - 1) := by
  rw [GetIndexForCompact_exact n x y h1 h2 hn]
  have hq := tri_div_exact y
  have h3 : y * (y + 1) ≤ n * y := by
    calc y * (y + 1) ≤ y * n := Nat.mul_le_mul_left y (by omega)
    _ = n * y := Nat.mul_comm y n
  unfold triSlot
  omega

theorem triSlot_succ (n y : Nat) (h : y + 1 < n) :
    triSlot n (y + 1) = triSlot n y + (n - 1 - y) := by
  have hq1 := tri_div_exact y
  have hq2 := tri_div_exact (y + 1)
  have e1 : n * (y + 1) = n * y + n := by ring
  have e2 : (y + 1) * (y + 1 + 1) = y * (y + 1) + 2 * (y + 1) := by ring
  have h3 : y * (y + 1) ≤ n * y := by
    calc y * (y + 1) ≤ y * n := Nat.mul_le_mul_left y (by omega)
    _ = n * y := Nat.mul_comm y n
  have h4 : (y + 1) * (y + 1 + 1) ≤ n * (y + 1) := by
    calc (y + 1) * (y + 1 + 1) ≤ (y + 1) * n := Nat.mul_le_mul_left (y + 1) (by omega)
    _ = n * (y + 1) := Nat.mul_comm _ n
  unfold triSlot
  omega

theorem triSlot_mono (n y k : Nat) (h : y + k < n) :
    triSlot n y ≤ triSlot n (y + k) := by
  induction k with
  | zero => exact Nat.le_refl _
  | succ m ih =>
    have h1 : y + m < n := by omega
    have h2 : (y + m) + 1 < n := by omega
    have hstep := triSlot_succ n (y + m) h2
    have hih := ih h1
    have harg : y + (m + 1) = (y + m) + 1 := by ring
    rw [harg]
    omega

theorem triSlot_last (n : Nat) : triSlot n (n - 1) = n * (n - 1) / 2 := by
  rcases n with _ | m
  · simp [triSlot]
  · have hq := tri_div_exact m
    have hq2 : 2 ∣ (m + 1) * m := by
      have : (m + 1) * m = m * (m + 1) := by ring
      rw [this]
      exact (Nat.even_mul_succ_self m).two_dvd
    have e1 : (m + 1) * m = m * (m + 1) := by ring
    unfold triSlot
    simp only [Nat.add_sub_cancel]
    omega

theorem GetIndexForCompact_lt (n x y : Nat) (h1 : y < x) (h2 : x < n)
    (hn : n ≤ 4096) :
    GetIndexForCompact n x y < n * (n - 1) / 2 := by
  have he := idx_eq_triSlot n x y h1 h2 hn
  have hs : y + 1 < n := by omega
  have hstep := triSlot_succ n y hs
  have hmono : triSlot n (y + 1) ≤ triSlot n (n - 1) := by
    have := triSlot_mono n (y + 1) (n - 1 - (y + 1)) (by omega)
    have harg : y + 1 + (n - 1 - (y + 1)) = n - 1 := by omega
    rwa [harg] at this
  have hlast := triSlot_last n
  omega

theorem GetIndexForCompact_injective (n x y x1 y1 : Nat)
    (hy : y < x) (hx : x < n) (hy1 : y1 < x1) (hx1 : x1 < n)
    (hn : n ≤ 4096)
    (heq : GetIndexForCompact n x y = GetIndexForCompact n x1 y1) :
    x = x1 ∧ y = y1 := by
  have he := idx_eq_triSlot n x y hy hx hn
  have he1 := idx_eq_triSlot n x1 y1 hy1 hx1 hn
  have key : ∀ a b c d : Nat, b < a → a < n → d < c → c < n → b < d →
      triSlot n b + (a - b - 1) < triSlot n d + (c - d - 1) := by
    intro a b c d hba han hdc hcn hbd
    have hs : b + 1 < n := by omega
    have hstep := triSlot_succ n b hs
    have hmono : triSlot n (b + 1) ≤ triSlot n d := by
      have := triSlot_mono n (b + 1) (d - (b + 1)) (by omega)
      have harg : b + 1 + (d - (b + 1)) = d := by omega
      rwa [harg] at this
    omega
  rcases Nat.lt_trichotomy y y1 with hlt | heq2 | hgt
  · have := key x y x1 y1 hy hx hy1 hx1 hlt
    omega
  · subst heq2
    constructor
    · omega
    · rfl
  · have := key x1 y1 x y hy1 hx1 hy hx hgt
    omega

theorem writeEdge_foldl_length (n : Nat) (l : List Edge) (acc : List Int) :
    (l.foldl (writeEdge n) acc).length = acc.length := by
  induction l generalizing acc with
  | nil => rfl
  | cons e rest ih =>
    simp only [List.foldl_cons]
    rw [ih]
    simp [writeEdge]

theorem getD_set_ne (l : List Int) (k j : Nat) (w : Int) (h : k ≠ j) :
    (l.set k w).getD j 0 = l.getD j 0 := by
  by_cases hj : j < l.length
  · rw [List.getD_eq_getElem _ _ (by simpa using hj), List.getD_eq_getElem _ _ hj]
    exact List.getElem_set_ne h (by simpa using hj)
  · rw [List.getD_eq_default _ _ (by simp; omega), List.getD_eq_default _ _ (by omega)]

theorem writeEdge_foldl_getD (n : Nat) (l : List Edge) (acc : List Int) (j : Nat)
    (h : ∀ e ∈ l, GetIndexForCompact n e.v2 e.v1 ≠ j) :
    (l.foldl (writeEdge n) acc).getD j 0 = acc.getD j 0 := by
  induction l generalizing acc with
  | nil => rfl
  | cons e rest ih =>
    simp only [List.foldl_cons]
    rw [ih _ (fun e2 he2 => h e2 (List.mem_cons_of_mem _ he2))]
    exact getD_set_ne _ _ _ _ (h e (List.mem_cons_self _ _))

/-- Claim C4 — counterexample to the original claim.  The source computes
the compact index through a single-precision float.  At `n = 4099` the slot
of `(x, y) = (4098, 4097)` differs from the claimed exact formula
`x - y - 1 + n*y - y*(y+1)/2` (the float rounds `16793603` to `16793604`),
and at `n = 9000` the distinct in-range pairs `(8191, 8190)` and
`(8192, 8190)` collide onto the same slot, refuting the slot-formula and
injectivity clauses inside the claim's unbounded domain. -/
theorem c4_counterexample :
    GetIndexForCompact 4099 4098 4097 ≠
      4098 - 4097 - 1 + 4099 * 4097 - 4097 * (4097 + 1) / 2 ∧
    GetIndexForCompact 9000 8191 8190 = GetIndexForCompact 9000 8192 8190 := by
  constructor
  · decide
  · decide

/-- Claim C4 — amended.  For a graph with at most 4096 vertices (where the
source's single-precision float index arithmetic is exact), the
compact-edge-store index function maps every pair `y < x < n` to
`x - y - 1 + n*y - y*(y+1)/2` (the cast identity over `ℤ` holds), the
mapping is injective into `[0, n*(n-1)/2)`, the array built by `UpdateEdges`
has length exactly `n*(n-1)/2`, and every slot not written by an edge holds
the sentinel `mMaxValue`.  Beyond that bound the float index rounds and
collides (see the counterexample). -/
theorem c4_amended {V : Type} (g : Graph V)
    (hn : g.mVertices.length ≤ 4096) :
    (∀ x y, y < x → x < g.mVertices.length →
      (GetIndexForCompact g.mVertices.length x y : ℤ)
        = (x : ℤ) - (y : ℤ) - 1 + (g.mVertices.length : ℤ) * (y : ℤ)
          - (y : ℤ) * ((y : ℤ) + 1) / 2) ∧
    (∀ x y x1 y1, y < x → x < g.mVertices.length → y1 < x1 →
      x1 < g.mVertices.length →
      GetIndexForCompact g.mVertices.length x y
        = GetIndexForCompact g.mVertices.length x1 y1 → x = x1 ∧ y = y1) ∧
    (∀ x y, y < x → x < g.mVertices.length →
      GetIndexForCompact g.mVertices.length x y
        < g.mVertices.length * (g.mVertices.length - 1) / 2) ∧
    (UpdateEdges g).mEdgesCompact.length
      = g.mVertices.length * (g.mVertices.length - 1) / 2 ∧
    (∀ j, j < g.mVertices.length * (g.mVertices.length - 1) / 2 →
      (∀ e ∈ g.mEdges, GetIndexForCompact g.mVertices.length e.v2 e.v1 ≠ j) →
      (UpdateEdges g).mEdgesCompact.getD j 0 = g.mMaxValue) := by
  refine ⟨?_, ?_, ?_, ?_, ?_⟩
  · intro x y h1 h2
    have hq := tri_div_exact y
    have h3 : y * (y + 1) ≤ g.mVertices.length * y := by
      calc y * (y + 1) ≤ y * g.mVertices.length := Nat.mul_le_mul_left y (by omega)
      _ = g.mVertices.length * y := Nat.mul_comm _ _
    have hp : ((g.mVertices.length * y : ℕ) : ℤ)
        = (g.mVertices.length : ℤ) * (y : ℤ) := by push_cast; ring
    have ht : ((y * (y + 1) : ℕ) : ℤ) = (y : ℤ) * ((y : ℤ) + 1) := by push_cast; ring
    have hdiv : (y : ℤ) * ((y : ℤ) + 1) / 2 = ((y * (y + 1) / 2 : ℕ) : ℤ) := by
      rw [← ht]
      omega
    rw [GetIndexForCompact_exact _ x y h1 h2 hn, ← hp, hdiv]
    omega
  · intro x y x1 y1 h1 h2 h3 h4 h5
    exact GetIndexForCompact_injective _ x y x1 y1 h1 h2 h3 h4 hn h5
  · intro x y h1 h2
    exact GetIndexForCompact_lt _ x y h1 h2 hn
  · show (g.mEdges.foldl (writeEdge g.mVertices.length) _).length = _
    rw [writeEdge_foldl_length, List.length_replicate]
    exact UpdateEdges_size_exact g.mVertices.length hn
  · intro j hj hmiss
    show (g.mEdges.foldl (writeEdge g.mVertices.length) _).getD j 0 = _
    rw [writeEdge_foldl_getD _ _ _ _ hmiss]
    have hlen : j < (List.replicate (rnd24 ((g.mVertices.length *
        (g.mVertices.length - 1)) % 2 ^ 64) / 2) g.mMaxValue).length := by
      rw [List.length_replicate, UpdateEdges_size_exact _ hn]
      exact hj
    rw [List.getD_eq_getElem _ _ hlen]
    simp

/-- Witness for `c4_amended` on a concrete 4-vertex graph with one written
edge, exercising each conjunct at concrete indices. -/
theorem c4_amended_witness :
    (GetIndexForCompact 4 2 1 : ℤ)
      = (2 : ℤ) - (1 : ℤ) - 1 + (4 : ℤ) * (1 : ℤ) - (1 : ℤ) * ((1 : ℤ) + 1) / 2 ∧
    (GetIndexForCompact 4 2 1 = GetIndexForCompact 4 2 1 → (2 : Nat) = 2 ∧ (1 : Nat) = 1) ∧
    GetIndexForCompact 4 2 1 < 4 * (4 - 1) / 2 ∧
    (UpdateEdges (⟨[0, 1, 2, 3], [⟨0, 1, 7⟩], [], 0, 100⟩ : Graph Nat)).mEdgesCompact.length
      = 4 * (4 - 1) / 2 ∧
    (UpdateEdges (⟨[0, 1, 2, 3], [⟨0, 1, 7⟩], [], 0, 100⟩ : Graph Nat)).mEdgesCompact.getD 1 0
      = 100 := by
  have h := c4_amended (⟨[0, 1, 2, 3], [⟨0, 1, 7⟩], [], 0, 100⟩ : Graph Nat)
    (by decide)
  refine ⟨?_, ?_, ?_, ?_, ?_⟩
  · have := h.1 2 1 (by decide) (by decide)
    simpa using this
  · intro hx
    exact h.2.1 2 1 2 1 (by decide) (by decide) (by decide) (by decide) hx
  · have := h.2.2.1 2 1 (by decide) (by decide)
    simpa using this
  · simpa using h.2.2.2.1
  · have := h.2.2.2.2 1 (by decide) (by decide)
    simpa using this

end GraphModel

namespace PQModel

/-- Keys of the association-list map are pairwise distinct; holds for every
map built through `mapInsert`/`mapErase` from the empty map, and needed so
that `mapErase` behaves like `unordered_map::erase`. -/
def KeysNodup {T : Type} (m : List (T × Nat)) : Prop := (m.map Prod.fst).Nodup

theorem mapFind_mapInsert_self {T : Type} [DecidableEq T] (m : List (T × Nat))
    (k : T) (v : Nat) : mapFind (mapInsert m k v) k = some v := by
  induction m with
  | nil => simp [mapInsert, mapFind]
  | cons hd tl ih =>
    by_cases h : hd.1 = k
    · simp [mapInsert, mapFind, h]
    · simp [mapInsert, mapFind, h, ih]

theorem mapFind_mapInsert_ne {T : Type} [DecidableEq T] (m : List (T × Nat))
    (k k2 : T) (v : Nat) (h : k ≠ k2) :
    mapFind (mapInsert m k v) k2 = mapFind m k2 := by
  induction m with
  | nil => simp [mapInsert, mapFind, h]
  | cons hd tl ih =>
    by_cases h2 : hd.1 = k
    · simp [mapInsert, mapFind, h2, h]
    · by_cases h3 : hd.1 = k2
      · have h4 : k2 ≠ k := fun hc => h hc.symm
        simp [mapInsert, mapFind, h2, h3, h4]
      · simp [mapInsert, mapFind, h2, h3, ih]

theorem mapFind_mapErase_ne {T : Type} [DecidableEq T] (m : List (T × Nat))
    (k k2 : T) (h : k ≠ k2) :
    mapFind (mapErase m k) k2 = mapFind m k2 := by
  induction m with
  | nil => simp [mapErase, mapFind]
  | cons hd tl ih =>
    by_cases h2 : hd.1 = k
    · have h3 : hd.1 ≠ k2 := by rw [h2]; exact h
      simp [mapErase, mapFind, h2, h3, h]
    · by_cases h3 : hd.1 = k2
      · have h4 : k2 ≠ k := fun hc => h hc.symm
        simp [mapErase, mapFind, h2, h3, h4]
      · simp [mapErase, mapFind, h2, h3, ih]

theorem mapFind_eq_none_iff {T : Type} [DecidableEq T] (m : List (T × Nat)) (k : T) :
    mapFind m k = none ↔ k ∉ m.map Prod.fst := by
  induction m with
  | nil => simp [mapFind]
  | cons hd tl ih =>
    by_cases h : hd.1 = k
    · simp [mapFind, h]
    · simp [mapFind, h, ih]
      intro h2
      exact fun hc => h hc.symm

theorem mapFind_mapErase_self {T : Type} [DecidableEq T] (m : List (T × Nat))
    (k : T) (hnd : KeysNodup m) : mapFind (mapErase m k) k = none := by
  induction m with
  | nil => simp [mapErase, mapFind]
  | cons hd tl ih =>
    have hnd2 : KeysNodup tl := (List.nodup_cons.mp hnd).2
    by_cases h : hd.1 = k
    · have hni : hd.1 ∉ tl.map Prod.fst := (List.nodup_cons.mp hnd).1
      rw [h] at hni
      simp [mapErase, h]
      exact (mapFind_eq_none_iff tl k).mpr hni
    · simp [mapErase, mapFind, h, ih hnd2]

theorem mapInsert_keys_of_found {T : Type} [DecidableEq T] (m : List (T × Nat))
    (k : T) (v : Nat) (h : (mapFind m k).isSome) :
    (mapInsert m k v).map Prod.fst = m.map Prod.fst := by
  induction m with
  | nil => simp [mapFind] at h
  | cons hd tl ih =>
    by_cases h2 : hd.1 = k
    · simp [mapInsert, h2]
    · simp only [mapFind, h2, if_neg] at h
      simp [mapInsert, h2, ih h]

theorem mapInsert_keys_of_none {T : Type} [DecidableEq T] (m : List (T × Nat))
    (k : T) (v : Nat) (h : mapFind m k = none) :
    (mapInsert m k v).map Prod.fst = m.map Prod.fst ++ [k] := by
  induction m with
  | nil => simp [mapInsert]
  | cons hd tl ih =>
    by_cases h2 : hd.1 = k
    · simp [mapFind, h2] at h
    · simp only [mapFind, h2, if_neg] at h
      simp [mapInsert, h2, ih h]

theorem mapErase_keys_sublist {T : Type} [DecidableEq T] (m : List (T × Nat))
    (k : T) : ((mapErase m k).map Prod.fst).Sublist (m.map Prod.fst) := by
  induction m with
  | nil => simp [mapErase]
  | cons hd tl ih =>
    by_cases h : hd.1 = k
    · simp only [mapErase, h, if_pos]
      exact (List.sublist_cons_self _ _)
    · simp only [mapErase, h, if_neg, not_false_iff, List.map_cons]
      exact ih.cons₂ _

theorem mapErase_keysNodup {T : Type} [DecidableEq T] (m : List (T × Nat))
    (k : T) (h : KeysNodup m) : KeysNodup (mapErase m k) :=
  (mapErase_keys_sublist m k).nodup h

/-- `getD` after an in-range `set` at the same index. -/
theorem getD_set_self_g {α : Type} (l : List α) (k : Nat) (w d : α)
    (h : k < l.length) : (l.set k w).getD k d = w := by
  rw [List.getD_eq_getElem _ _ (by simpa using h)]
  exact List.getElem_set_self (by simpa using h)

/-- `getD` after a `set` at a different index. -/
theorem getD_set_ne_g {α : Type} (l : List α) (k j : Nat) (w d : α)
    (h : k ≠ j) : (l.set k w).getD j d = l.getD j d := by
  by_cases hj : j < l.length
  · rw [List.getD_eq_getElem _ _ (by simpa using hj), List.getD_eq_getElem _ _ hj]
    exact List.getElem_set_ne h (by simpa using hj)
  · rw [List.getD_eq_default _ _ (by simp; omega), List.getD_eq_default _ _ (by omega)]

/-- Asymmetry of a lawful comparator. -/
theorem comp_asymm {T : Type} {comp : T → T → Bool} (hcl : CompLawful comp)
    {a b : T} (h : comp a b = true) : comp b a = false := by
  by_contra hc
  have hba : comp b a = true := by
    cases hcomp : comp b a
    · exact absurd hcomp hc
    · rfl
  have := hcl.2.1 a b a h hba
  rw [hcl.1 a] at this
  exact Bool.false_ne_true this

theorem parent_lt (i : Nat) (h : i ≠ 0) : GetParentPosition i < i := by
  unfold GetParentPosition
  omega

theorem parent_eq_iff_child (i e : Nat) (h : i ≠ 0) :
    GetParentPosition i = e ↔
      (i = GetLeftChildPosition e ∨ i = GetRightChildPosition e) := by
  unfold GetParentPosition GetLeftChildPosition GetRightChildPosition
  omega

theorem lt_of_parent_eq (i e : Nat) (h : i ≠ 0) (h2 : GetParentPosition i = e) :
    e < i := by
  unfold GetParentPosition at h2
  omega

/-- Under the position-map correspondence, `Swap` at in-range indices reduces
to a pair of `set`s plus a pair of `mapInsert`s. -/
theorem Swap_eq_of_found {T : Type} [DecidableEq T] [Inhabited T]
    (q : PriorityQueue T) (e1 e2 : Nat)
    (h1 : mapFind q.mValToPos (q.mData.getD e1 default) = some e1)
    (h2 : mapFind q.mValToPos (q.mData.getD e2 default) = some e2) :
    Swap q e1 e2 =
      ⟨(q.mData.set e1 (q.mData.getD e2 default)).set e2 (q.mData.getD e1 default),
       mapInsert (mapInsert q.mValToPos (q.mData.getD e1 default) e2)
         (q.mData.getD e2 default) e1,
       q.mLock⟩ := by
  simp only [Swap, mapGetRef, h1, h2]

theorem Swap_mLock {T : Type} [DecidableEq T] [Inhabited T]
    (q : PriorityQueue T) (e1 e2 : Nat) : (Swap q e1 e2).mLock = q.mLock := rfl

theorem Swap_length {T : Type} [DecidableEq T] [Inhabited T]
    (q : PriorityQueue T) (e1 e2 : Nat) :
    (Swap q e1 e2).mData.length = q.mData.length := by
  simp [Swap]

theorem Swap_getD {T : Type} [DecidableEq T] [Inhabited T]
    (q : PriorityQueue T) (e1 e2 i : Nat)
    (he1 : e1 < q.mData.length) (he2 : e2 < q.mData.length) :
    (Swap q e1 e2).mData.getD i default =
      if i = e2 then q.mData.getD e1 default
      else if i = e1 then q.mData.getD e2 default
      else q.mData.getD i default := by
  show ((q.mData.set e1 _).set e2 _).getD i default = _
  by_cases hi2 : i = e2
  · subst hi2
    rw [if_pos rfl]
    exact getD_set_self_g _ _ _ _ (by simpa using he2)
  · rw [if_neg hi2, getD_set_ne_g _ _ _ _ _ (fun hc => hi2 hc.symm)]
    by_cases hi1 : i = e1
    · subst hi1
      rw [if_pos rfl]
      exact getD_set_self_g _ _ _ _ he1
    · rw [if_neg hi1, getD_set_ne_g _ _ _ _ _ (fun hc => hi1 hc.symm)]

theorem Swap_find {T : Type} [DecidableEq T] [Inhabited T]
    (q : PriorityQueue T) (e1 e2 : Nat) (k : T)
    (h1 : mapFind q.mValToPos (q.mData.getD e1 default) = some e1)
    (h2 : mapFind q.mValToPos (q.mData.getD e2 default) = some e2) :
    mapFind (Swap q e1 e2).mValToPos k =
      if k = q.mData.getD e2 default then some e1
      else if k = q.mData.getD e1 default then some e2
      else mapFind q.mValToPos k := by
  rw [Swap_eq_of_found q e1 e2 h1 h2]
  by_cases hk2 : k = q.mData.getD e2 default
  · subst hk2
    rw [if_pos rfl]
    exact mapFind_mapInsert_self _ _ _
  · rw [if_neg hk2, mapFind_mapInsert_ne _ _ _ _ (fun hc => hk2 hc.symm)]
    by_cases hk1 : k = q.mData.getD e1 default
    · subst hk1
      rw [if_pos rfl]
      exact mapFind_mapInsert_self _ _ _
    · rw [if_neg hk1, mapFind_mapInsert_ne _ _ _ _ (fun hc => hk1 hc.symm)]

theorem Swap_sync {T : Type} [DecidableEq T] [Inhabited T]
    (q : PriorityQueue T) (e1 e2 : Nat)
    (hsync : PosMapSynced q.mData q.mValToPos)
    (he1 : e1 < q.mData.length) (he2 : e2 < q.mData.length) :
    PosMapSynced (Swap q e1 e2).mData (Swap q e1 e2).mValToPos := by
  have h1 := hsync.1 e1 he1
  have h2 := hsync.1 e2 he2
  have hlen := Swap_length q e1 e2
  constructor
  · intro i hi
    rw [hlen] at hi
    by_cases hi2 : i = e2
    · rw [hi2, Swap_getD q e1 e2 e2 he1 he2, if_pos rfl,
        Swap_find q e1 e2 _ h1 h2]
      by_cases hv : q.mData.getD e1 default = q.mData.getD e2 default
      · rw [if_pos hv]
        have h12 : e1 = e2 := by
          rw [hv] at h1
          rw [h1] at h2
          exact Option.some.inj h2
        rw [h12]
      · rw [if_neg hv, if_pos rfl]
    · by_cases hi1 : i = e1
      · have h12 : ¬ e1 = e2 := fun hc => hi2 (hi1.trans hc)
        rw [hi1, Swap_getD q e1 e2 e1 he1 he2, if_neg h12, if_pos rfl,
          Swap_find q e1 e2 _ h1 h2, if_pos rfl]
      · rw [Swap_getD q e1 e2 i he1 he2, if_neg hi2, if_neg hi1,
          Swap_find q e1 e2 _ h1 h2]
        have hold := hsync.1 i hi
        have hne2 : q.mData.getD i default ≠ q.mData.getD e2 default := by
          intro hc
          have h3 := hold
          rw [hc, h2] at h3
          exact hi2 (Option.some.inj h3).symm
        have hne1 : q.mData.getD i default ≠ q.mData.getD e1 default := by
          intro hc
          have h3 := hold
          rw [hc, h1] at h3
          exact hi1 (Option.some.inj h3).symm
        rw [if_neg hne2, if_neg hne1]
        exact hold
  · intro v p hfind
    rw [Swap_find q e1 e2 _ h1 h2] at hfind
    rw [hlen]
    by_cases hv2 : v = q.mData.getD e2 default
    · rw [if_pos hv2] at hfind
      have hp : p = e1 := (Option.some.inj hfind).symm
      refine ⟨by rw [hp]; exact he1, ?_⟩
      rw [hp, Swap_getD q e1 e2 e1 he1 he2]
      by_cases h12 : e1 = e2
      · rw [if_pos h12, hv2, h12]
      · rw [if_neg h12, if_pos rfl, hv2]
    · rw [if_neg hv2] at hfind
      by_cases hv1 : v = q.mData.getD e1 default
      · rw [if_pos hv1] at hfind
        have hp : p = e2 := (Option.some.inj hfind).symm
        refine ⟨by rw [hp]; exact he2, ?_⟩
        rw [hp, Swap_getD q e1 e2 e2 he1 he2, if_pos rfl, hv1]
      · rw [if_neg hv1] at hfind
        rcases hsync.2 v p hfind with ⟨hp, hvp⟩
        refine ⟨hp, ?_⟩
        have hp2 : p ≠ e2 := by
          intro hc
          rw [hc] at hvp
          exact hv2 hvp.symm
        have hp1 : p ≠ e1 := by
          intro hc
          rw [hc] at hvp
          exact hv1 hvp.symm
        rw [Swap_getD q e1 e2 p he1 he2, if_neg hp2, if_neg hp1]
        exact hvp

theorem Swap_keys {T : Type} [DecidableEq T] [Inhabited T]
    (q : PriorityQueue T) (e1 e2 : Nat)
    (h1 : mapFind q.mValToPos (q.mData.getD e1 default) = some e1)
    (h2 : mapFind q.mValToPos (q.mData.getD e2 default) = some e2) :
    (Swap q e1 e2).mValToPos.map Prod.fst = q.mValToPos.map Prod.fst := by
  rw [Swap_eq_of_found q e1 e2 h1 h2]
  have hin : (mapFind (mapInsert q.mValToPos (q.mData.getD e1 default) e2)
      (q.mData.getD e2 default)).isSome := by
    by_cases hv : q.mData.getD e2 default = q.mData.getD e1 default
    · rw [hv, mapFind_mapInsert_self]
      rfl
    · rw [mapFind_mapInsert_ne _ _ _ _ (fun hc => hv hc.symm), h2]
      rfl
  rw [mapInsert_keys_of_found _ _ _ hin, mapInsert_keys_of_found _ _ _ (by rw [h1]; rfl)]

/-- Down-phase precondition at slot `e`: heap order holds at every
parent-child pair except possibly the pairs from `e` down to its children,
and (when `e` is not the root) the children of `e` are still dominated by
`e`'s parent. -/
def DownInv {T : Type} [Inhabited T] (comp : T → T → Bool) (d : List T) (e : Nat) : Prop :=
  (∀ i, i < d.length → i ≠ 0 → GetParentPosition i ≠ e →
    comp (d.getD (GetParentPosition i) default) (d.getD i default) = false) ∧
  (e ≠ 0 → ∀ c, c < d.length → GetParentPosition c = e →
    comp (d.getD (GetParentPosition e) default) (d.getD c default) = false)

/-- Up-phase precondition at slot `e`: heap order holds at every parent-child
pair except possibly the pair from `e`'s parent to `e`, and (when `e` is not
the root) the children of `e` are dominated by `e`'s parent. -/
def UpInv {T : Type} [Inhabited T] (comp : T → T → Bool) (d : List T) (e : Nat) : Prop :=
  (∀ i, i < d.length → i ≠ 0 → i ≠ e →
    comp (d.getD (GetParentPosition i) default) (d.getD i default) = false) ∧
  (e ≠ 0 → ∀ c, c < d.length → GetParentPosition c = e →
    comp (d.getD (GetParentPosition e) default) (d.getD c default) = false)

theorem chooseChild_gt {T : Type} [Inhabited T] (comp : T → T → Bool)
    (data : List T) (e : Nat) : e < ChooseChild comp data e := by
  unfold ChooseChild GetLeftChildPosition GetRightChildPosition
  split_ifs <;> omega

theorem chooseChild_lt_len {T : Type} [Inhabited T] (comp : T → T → Bool)
    (data : List T) (e : Nat) (h : GetLeftChildPosition e < data.length) :
    ChooseChild comp data e < data.length := by
  unfold ChooseChild GetLeftChildPosition GetRightChildPosition at *
  split_ifs <;> omega

theorem parent_chooseChild {T : Type} [Inhabited T] (comp : T → T → Bool)
    (data : List T) (e : Nat) :
    GetParentPosition (ChooseChild comp data e) = e := by
  unfold ChooseChild GetParentPosition GetLeftChildPosition GetRightChildPosition
  split_ifs <;> omega

/-- The chosen child is never outranked by the other child of `e`. -/
theorem chooseChild_best {T : Type} [Inhabited T] {comp : T → T → Bool}
    (hcl : CompLawful comp) (data : List T) (e o : Nat)
    (ho : o < data.length) (ho0 : o ≠ 0) (hpo : GetParentPosition o = e)
    (hne : o ≠ ChooseChild comp data e) :
    comp (data.getD (ChooseChild comp data e) default) (data.getD o default) = false := by
  have hchild := (parent_eq_iff_child o e ho0).mp hpo
  by_cases hr : GetRightChildPosition e ≥ data.length
  · have hcc : ChooseChild comp data e = GetLeftChildPosition e := by
      unfold ChooseChild
      rw [if_pos hr]
    rcases hchild with h | h
    · rw [← h] at hcc
      exact absurd hcc.symm hne
    · omega
  · push_neg at hr
    by_cases hcomp : comp (data.getD (GetLeftChildPosition e) default)
        (data.getD (GetRightChildPosition e) default) = true
    · have hcc : ChooseChild comp data e = GetRightChildPosition e := by
        unfold ChooseChild
        rw [if_neg (by omega), if_pos hcomp]
      rcases hchild with h | h
      · rw [hcc, h]
        exact comp_asymm hcl hcomp
      · rw [← h] at hcc
        exact absurd hcc.symm hne
    · have hcc : ChooseChild comp data e = GetLeftChildPosition e := by
        unfold ChooseChild
        rw [if_neg (by omega), if_neg hcomp]
      rcases hchild with h | h
      · rw [← h] at hcc
        exact absurd hcc.symm hne
      · rw [hcc, h]
        exact Bool.eq_false_iff.mpr hcomp

/-- When the down-phase guard fails, no child of `e` outranks `e`. -/
theorem down_guard_false_all {T : Type} [Inhabited T] {comp : T → T → Bool}
    (hcl : CompLawful comp) (data : List T) (e o : Nat)
    (ho : o < data.length) (ho0 : o ≠ 0) (hpo : GetParentPosition o = e)
    (hgf : comp (data.getD e default)
      (data.getD (ChooseChild comp data e) default) = false) :
    comp (data.getD e default) (data.getD o default) = false := by
  by_cases hoc : o = ChooseChild comp data e
  · rw [hoc]
    exact hgf
  · exact hcl.2.2 _ _ _ hgf (chooseChild_best hcl data e o ho ho0 hpo hoc)

/-- A full heap satisfies the down-phase precondition at any slot. -/
theorem heap_downInv {T : Type} [Inhabited T] {comp : T → T → Bool}
    (hcl : CompLawful comp) (d : List T) (e : Nat)
    (hheap : HeapInvariant comp d) : DownInv comp d e := by
  constructor
  · intro i hi hi0 _
    exact hheap i hi hi0
  · intro he0 c hc hpc
    have hec : e < c := lt_of_parent_eq c e (by
      intro hc0
      rw [hc0] at hpc
      unfold GetParentPosition at hpc
      omega) hpc
    have hc0 : c ≠ 0 := by omega
    have helen : e < d.length := by omega
    have h1 := hheap e helen he0
    have h2 := hheap c hc hc0
    rw [hpc] at h2
    exact hcl.2.2 _ _ _ h1 h2

/-- The bubble-down loop turns the down-phase precondition into the full heap
invariant, preserving the position map correspondence, the key distinctness,
the data length, and the lock. -/
theorem bubbleDownF_WF {T : Type} [DecidableEq T] [Inhabited T]
    {comp : T → T → Bool} (hcl : CompLawful comp) :
    ∀ (fuel : Nat) (q : PriorityQueue T) (e : Nat),
    q.mData.length ≤ e + fuel →
    PosMapSynced q.mData q.mValToPos → KeysNodup q.mValToPos →
    DownInv comp q.mData e →
    HeapInvariant comp (BubbleDownF fuel comp q e).mData ∧
    PosMapSynced (BubbleDownF fuel comp q e).mData
      (BubbleDownF fuel comp q e).mValToPos ∧
    KeysNodup (BubbleDownF fuel comp q e).mValToPos ∧
    (BubbleDownF fuel comp q e).mData.length = q.mData.length ∧
    (BubbleDownF fuel comp q e).mLock = q.mLock := by
  intro fuel
  induction fuel with
  | zero =>
    intro q e hfuel hsync hkn hinv
    simp only [BubbleDownF]
    refine ⟨?_, hsync, hkn, by trivial, by trivial⟩
    intro i hi hi0
    apply hinv.1 i hi hi0
    intro hpe
    have := lt_of_parent_eq i e hi0 hpe
    omega
  | succ n ih =>
    intro q e hfuel hsync hkn hinv
    simp only [BubbleDownF]
    by_cases hlc : GetLeftChildPosition e ≥ q.mData.length
    · rw [if_pos hlc]
      refine ⟨?_, hsync, hkn, by trivial, by trivial⟩
      intro i hi hi0
      apply hinv.1 i hi hi0
      intro hpe
      rcases (parent_eq_iff_child i e hi0).mp hpe with h | h
      · unfold GetLeftChildPosition at *
        omega
      · unfold GetLeftChildPosition GetRightChildPosition at *
        omega
    · rw [if_neg hlc]
      push_neg at hlc
      have hce : e < ChooseChild comp q.mData e := chooseChild_gt comp q.mData e
      have hclen : ChooseChild comp q.mData e < q.mData.length :=
        chooseChild_lt_len comp q.mData e hlc
      have hpc : GetParentPosition (ChooseChild comp q.mData e) = e :=
        parent_chooseChild comp q.mData e
      have hc0 : ChooseChild comp q.mData e ≠ 0 := by omega
      have helen : e < q.mData.length := by omega
      by_cases hguard : comp (q.mData.getD e default)
          (q.mData.getD (ChooseChild comp q.mData e) default) = true
      · rw [if_pos hguard]
        have hsync2 := Swap_sync q e (ChooseChild comp q.mData e) hsync helen hclen
        have hfind1 := hsync.1 e helen
        have hfind2 := hsync.1 (ChooseChild comp q.mData e) hclen
        have hkeys := Swap_keys q e (ChooseChild comp q.mData e) hfind1 hfind2
        have hkn2 : KeysNodup (Swap q e (ChooseChild comp q.mData e)).mValToPos := by
          unfold KeysNodup
          rw [hkeys]
          exact hkn
        have hlen2 := Swap_length q e (ChooseChild comp q.mData e)
        have hgetD : ∀ i, (Swap q e (ChooseChild comp q.mData e)).mData.getD i default =
            if i = ChooseChild comp q.mData e then q.mData.getD e default
            else if i = e then q.mData.getD (ChooseChild comp q.mData e) default
            else q.mData.getD i default :=
          fun i => Swap_getD q e (ChooseChild comp q.mData e) i helen hclen
        have hinv2 : DownInv comp (Swap q e (ChooseChild comp q.mData e)).mData
            (ChooseChild comp q.mData e) := by
          constructor
          · intro i hi hi0 hpic
            rw [hlen2] at hi
            rw [hgetD, hgetD]
            by_cases hic : i = ChooseChild comp q.mData e
            · rw [hic, hpc, if_neg (by omega), if_pos rfl, if_pos rfl]
              exact comp_asymm hcl hguard
            · rw [if_neg hic]
              by_cases hie : i = e
              · have he0 : e ≠ 0 := by rw [← hie]; exact hi0
                have hppe : GetParentPosition i ≠ e := by
                  rw [hie]
                  intro hc
                  have := parent_lt e he0
                  omega
                rw [if_pos hie]
                rw [if_neg (by
                  intro hc
                  have := lt_of_parent_eq i (ChooseChild comp q.mData e) hi0 hc
                  omega), if_neg (by
                  rw [hie]
                  intro hc
                  have := parent_lt e he0
                  omega)]
                have := hinv.2 he0 (ChooseChild comp q.mData e) hclen hpc
                rw [hie]
                exact this
              · rw [if_neg hie]
                by_cases hpie : GetParentPosition i = e
                · rw [if_neg (by
                    intro hc
                    exact hpic hc), if_pos hpie]
                  exact chooseChild_best hcl q.mData e i hi hi0 hpie hic
                · rw [if_neg hpic, if_neg hpie]
                  exact hinv.1 i hi hi0 hpie
          · intro _ gc hgc hpgc
            rw [hlen2] at hgc
            rw [hgetD, hgetD, hpc]
            have hcgc : ChooseChild comp q.mData e < gc := by
              have hgc0 : gc ≠ 0 := by
                intro hc
                rw [hc] at hpgc
                unfold GetParentPosition at hpgc
                omega
              exact lt_of_parent_eq gc (ChooseChild comp q.mData e) hgc0 hpgc
            rw [if_neg (by omega), if_pos rfl, if_neg (by omega), if_neg (by omega)]
            have hgc0 : gc ≠ 0 := by omega
            have := hinv.1 gc hgc hgc0 (by rw [hpgc]; omega)
            rw [hpgc] at this
            exact this
        have hfuel2 : (Swap q e (ChooseChild comp q.mData e)).mData.length ≤
            ChooseChild comp q.mData e + n := by
          rw [hlen2]
          omega
        rcases ih (Swap q e (ChooseChild comp q.mData e))
          (ChooseChild comp q.mData e) hfuel2 hsync2 hkn2 hinv2 with
          ⟨ha, hb, hc, hd, he2⟩
        refine ⟨ha, hb, hc, ?_, ?_⟩
        · rw [hd, hlen2]
        · rw [he2, Swap_mLock]
      · rw [if_neg hguard]
        refine ⟨?_, hsync, hkn, by trivial, by trivial⟩
        intro i hi hi0
        by_cases hpe : GetParentPosition i = e
        · rw [hpe]
          exact down_guard_false_all hcl q.mData e i hi hi0 hpe
            (Bool.eq_false_iff.mpr hguard)
        · exact hinv.1 i hi hi0 hpe

/-- The bubble-up loop turns the up-phase precondition into the full heap
invariant, preserving the position map correspondence, the key distinctness,
the data length, and the lock. -/
theorem bubbleUpF_WF {T : Type} [DecidableEq T] [Inhabited T]
    {comp : T → T → Bool} (hcl : CompLawful comp) :
    ∀ (fuel : Nat) (q : PriorityQueue T) (e : Nat),
    e < fuel → e < q.mData.length →
    PosMapSynced q.mData q.mValToPos → KeysNodup q.mValToPos →
    UpInv comp q.mData e →
    HeapInvariant comp (BubbleUpF fuel comp q e).1.mData ∧
    PosMapSynced (BubbleUpF fuel comp q e).1.mData
      (BubbleUpF fuel comp q e).1.mValToPos ∧
    KeysNodup (BubbleUpF fuel comp q e).1.mValToPos ∧
    (BubbleUpF fuel comp q e).1.mData.length = q.mData.length ∧
    (BubbleUpF fuel comp q e).1.mLock = q.mLock := by
  intro fuel
  induction fuel with
  | zero =>
    intro q e hfuel
    omega
  | succ n ih =>
    intro q e hfuel he hsync hkn hinv
    simp only [BubbleUpF]
    by_cases hguard : e ≠ 0 ∧ comp (q.mData.getD (GetParentPosition e) default)
        (q.mData.getD e default) = true
    · rw [if_pos hguard]
      rcases hguard with ⟨he0, hcomp⟩
      have hplt : GetParentPosition e < e := parent_lt e he0
      have hplen : GetParentPosition e < q.mData.length := by omega
      have hfind1 := hsync.1 (GetParentPosition e) hplen
      have hfind2 := hsync.1 e he
      have hsync2 := Swap_sync q (GetParentPosition e) e hsync hplen he
      have hkeys := Swap_keys q (GetParentPosition e) e hfind1 hfind2
      have hkn2 : KeysNodup (Swap q (GetParentPosition e) e).mValToPos := by
        unfold KeysNodup
        rw [hkeys]
        exact hkn
      have hlen2 := Swap_length q (GetParentPosition e) e
      have hgetD : ∀ i, (Swap q (GetParentPosition e) e).mData.getD i default =
          if i = e then q.mData.getD (GetParentPosition e) default
          else if i = GetParentPosition e then q.mData.getD e default
          else q.mData.getD i default :=
        fun i => Swap_getD q (GetParentPosition e) e i hplen he
      have hinv2 : UpInv comp (Swap q (GetParentPosition e) e).mData
          (GetParentPosition e) := by
        constructor
        · intro i hi hi0 hip
          rw [hlen2] at hi
          by_cases hie : i = e
          · have h1 : (Swap q (GetParentPosition e) e).mData.getD
                (GetParentPosition i) default = q.mData.getD e default := by
              rw [hgetD, hie, if_neg (by omega), if_pos rfl]
            have h2 : (Swap q (GetParentPosition e) e).mData.getD i default =
                q.mData.getD (GetParentPosition e) default := by
              rw [hgetD, if_pos hie]
            rw [h1, h2]
            exact comp_asymm hcl hcomp
          · by_cases hpie : GetParentPosition i = e
            · have heli : e < i := lt_of_parent_eq i e hi0 hpie
              have h1 : (Swap q (GetParentPosition e) e).mData.getD
                  (GetParentPosition i) default =
                  q.mData.getD (GetParentPosition e) default := by
                rw [hgetD, if_pos hpie]
              have h2 : (Swap q (GetParentPosition e) e).mData.getD i default =
                  q.mData.getD i default := by
                rw [hgetD, if_neg hie, if_neg (by omega)]
              rw [h1, h2]
              exact hinv.2 he0 i hi hpie
            · by_cases hpip : GetParentPosition i = GetParentPosition e
              · have h1 : (Swap q (GetParentPosition e) e).mData.getD
                    (GetParentPosition i) default = q.mData.getD e default := by
                  rw [hgetD, if_neg hpie, if_pos hpip]
                have h2 : (Swap q (GetParentPosition e) e).mData.getD i default =
                    q.mData.getD i default := by
                  rw [hgetD, if_neg hie, if_neg hip]
                rw [h1, h2]
                have hold := hinv.1 i hi hi0 hie
                rw [hpip] at hold
                by_contra hcon
                have hcon2 : comp (q.mData.getD e default)
                    (q.mData.getD i default) = true := by
                  cases hcx : comp (q.mData.getD e default) (q.mData.getD i default)
                  · exact absurd hcx hcon
                  · rfl
                have htr := hcl.2.1 _ _ _ hcomp hcon2
                rw [htr] at hold
                exact Bool.noConfusion hold
              · have h1 : (Swap q (GetParentPosition e) e).mData.getD
                    (GetParentPosition i) default =
                    q.mData.getD (GetParentPosition i) default := by
                  rw [hgetD, if_neg hpie, if_neg hpip]
                have h2 : (Swap q (GetParentPosition e) e).mData.getD i default =
                    q.mData.getD i default := by
                  rw [hgetD, if_neg hie, if_neg hip]
                rw [h1, h2]
                exact hinv.1 i hi hi0 hie
        · intro hp0 cc hcc hpcc
          rw [hlen2] at hcc
          have hppp : GetParentPosition (GetParentPosition e) < GetParentPosition e :=
            parent_lt _ hp0
          have hple : GetParentPosition e ≠ e := by omega
          have h1 : (Swap q (GetParentPosition e) e).mData.getD
              (GetParentPosition (GetParentPosition e)) default =
              q.mData.getD (GetParentPosition (GetParentPosition e)) default := by
            rw [hgetD, if_neg (by omega), if_neg (by omega)]
          rw [h1]
          by_cases hcce : cc = e
          · have h2 : (Swap q (GetParentPosition e) e).mData.getD cc default =
                q.mData.getD (GetParentPosition e) default := by
              rw [hgetD, if_pos hcce]
            rw [h2]
            exact hinv.1 (GetParentPosition e) hplen hp0 hple
          · have hpcclt : GetParentPosition e < cc := lt_of_parent_eq cc _ (by
              intro hc
              rw [hc] at hpcc
              unfold GetParentPosition at hpcc hp0
              omega) hpcc
            have hcc0 : cc ≠ 0 := by omega
            have h2 : (Swap q (GetParentPosition e) e).mData.getD cc default =
                q.mData.getD cc default := by
              rw [hgetD, if_neg hcce, if_neg (by omega)]
            rw [h2]
            have h3 := hinv.1 (GetParentPosition e) hplen hp0 hple
            have h4 := hinv.1 cc hcc hcc0 hcce
            rw [hpcc] at h4
            exact hcl.2.2 _ _ _ h3 h4
      rcases ih (Swap q (GetParentPosition e) e) (GetParentPosition e)
        (by omega) (by rw [hlen2]; omega) hsync2 hkn2 hinv2 with
        ⟨ha, hb, hc, hd, he2⟩
      refine ⟨ha, hb, hc, ?_, ?_⟩
      · rw [hd, hlen2]
      · rw [he2, Swap_mLock]
    · rw [if_neg hguard]
      refine ⟨?_, hsync, hkn, by trivial, by trivial⟩
      intro i hi hi0
      by_cases hie : i = e
      · rw [hie]
        by_cases he0 : e = 0
        · rw [← hie] at he0
          exact absurd he0 hi0
        · have hcomp : comp (q.mData.getD (GetParentPosition e) default)
              (q.mData.getD e default) = false := by
            by_contra hcon
            exact hguard ⟨he0, by
              cases hcx : comp (q.mData.getD (GetParentPosition e) default)
                  (q.mData.getD e default)
              · exact absurd hcx hcon
              · rfl⟩
          exact hcomp
      · exact hinv.1 i hi hi0 hie

/-- `UpdatePriority` restores the heap invariant from any single-slot
disturbance, preserving the position-map correspondence, the key
distinctness, the data length, and the lock. -/
theorem updatePriority_WF {T : Type} [DecidableEq T] [Inhabited T]
    {comp : T → T → Bool} (hcl : CompLawful comp)
    (q : PriorityQueue T) (e : Nat) (he : e = 0 ∨ e < q.mData.length)
    (hsync : PosMapSynced q.mData q.mValToPos) (hkn : KeysNodup q.mValToPos)
    (halmost : ∀ i, i < q.mData.length → i ≠ 0 → i ≠ e → GetParentPosition i ≠ e →
      comp (q.mData.getD (GetParentPosition i) default) (q.mData.getD i default) = false)
    (hup : e ≠ 0 → ∀ c, c < q.mData.length → GetParentPosition c = e →
      comp (q.mData.getD (GetParentPosition e) default) (q.mData.getD c default) = false) :
    HeapInvariant comp (UpdatePriority comp q e).mData ∧
    PosMapSynced (UpdatePriority comp q e).mData (UpdatePriority comp q e).mValToPos ∧
    KeysNodup (UpdatePriority comp q e).mValToPos ∧
    (UpdatePriority comp q e).mData.length = q.mData.length ∧
    (UpdatePriority comp q e).mLock = q.mLock := by
  simp only [UpdatePriority]
  by_cases hguard : e ≠ 0 ∧ comp (q.mData.getD (GetParentPosition e) default)
      (q.mData.getD e default) = true
  · have hupinv : UpInv comp q.mData e := by
      constructor
      · intro i hi hi0 hie
        by_cases hpie : GetParentPosition i = e
        · rw [hpie]
          by_contra hcon
          have hcon2 : comp (q.mData.getD e default) (q.mData.getD i default) = true := by
            cases hcx : comp (q.mData.getD e default) (q.mData.getD i default)
            · exact absurd hcx hcon
            · rfl
          have htr := hcl.2.1 _ _ _ hguard.2 hcon2
          have := hup hguard.1 i hi hpie
          rw [htr] at this
          exact Bool.noConfusion this
        · exact halmost i hi hi0 hie hpie
      · exact hup
    have hbu := bubbleUpF_WF hcl (e + 1) q e (by omega)
      (by
        rcases he with h0 | h
        · exact absurd h0 hguard.1
        · exact h) hsync hkn hupinv
    rcases hbu with ⟨ha, hb, hc, hd, he2⟩
    have hbd := bubbleDownF_WF hcl ((BubbleUpF (e + 1) comp q e).1.mData.length + 1)
      (BubbleUpF (e + 1) comp q e).1 (BubbleUpF (e + 1) comp q e).2
      (by omega) hb hc (heap_downInv hcl _ _ ha)
    rcases hbd with ⟨hA, hB, hC, hD, hE⟩
    refine ⟨hA, hB, hC, ?_, ?_⟩
    · rw [hD, hd]
    · rw [hE, he2]
  · have hr : BubbleUpF (e + 1) comp q e = (q, e) := by
      simp only [BubbleUpF]
      rw [if_neg hguard]
    rw [hr]
    have hdinv : DownInv comp q.mData e := by
      constructor
      · intro i hi hi0 hpie
        by_cases hie : i = e
        · rw [hie]
          by_cases he0 : e = 0
          · rw [← hie] at he0
            exact absurd he0 hi0
          · by_contra hcon
            exact hguard ⟨he0, by
              cases hcx : comp (q.mData.getD (GetParentPosition e) default)
                  (q.mData.getD e default)
              · exact absurd hcx hcon
              · rfl⟩
        · exact halmost i hi hi0 hie hpie
      · exact hup
    exact bubbleDownF_WF hcl (q.mData.length + 1) q e (by omega) hsync hkn hdinv

/-- Combined well-formedness carried through the `Reachable` induction. -/
def QueueWF {T : Type} [DecidableEq T] [Inhabited T]
    (comp : T → T → Bool) (q : PriorityQueue T) : Prop :=
  HeapInvariant comp q.mData ∧ PosMapSynced q.mData q.mValToPos ∧
    KeysNodup q.mValToPos

theorem getD_dropLast {α : Type} (l : List α) (i : Nat) (d : α)
    (h : i < l.length - 1) : l.dropLast.getD i d = l.getD i d := by
  rw [List.getD_eq_getElem _ _ (by simp; omega), List.getD_eq_getElem _ _ (by omega)]
  exact List.getElem_dropLast l i (by simp; omega)

theorem getLastD_eq_getD {α : Type} (l : List α) (d : α) :
    l.getLast?.getD d = l.getD (l.length - 1) d := by
  rw [List.getLast?_eq_getElem?, List.getD_eq_getD_get?]
  simp [List.get?_eq_getElem?]

theorem Add_WF {T : Type} [DecidableEq T] [Inhabited T] {comp : T → T → Bool}
    (hcl : CompLawful comp) (q : PriorityQueue T) (e : T) (q1 : PriorityQueue T)
    (hwf : QueueWF comp q) (h : Add comp q e = Except.ok q1) :
    QueueWF comp q1 := by
  rcases hwf with ⟨hheap, hsync, hkn⟩
  simp only [Add] at h
  by_cases hlock : q.mLock ≥ 1
  · rw [if_pos hlock] at h
    exact absurd h (by simp)
  · rw [if_neg hlock] at h
    by_cases hfound : (mapFind q.mValToPos e).isSome = true
    · rw [if_pos hfound] at h
      rw [Except.ok.injEq] at h
      subst h
      exact ⟨hheap, hsync, hkn⟩
    · rw [if_neg hfound] at h
      rw [Except.ok.injEq] at h
      subst h
      have hnone : mapFind q.mValToPos e = none := by
        cases hx : mapFind q.mValToPos e
        · rfl
        · rw [hx] at hfound
          exact absurd rfl hfound
      have hlenA : (q.mData ++ [e]).length = q.mData.length + 1 := by simp
      have hgetDA : ∀ i, i < q.mData.length →
          (q.mData ++ [e]).getD i default = q.mData.getD i default := by
        intro i hi
        exact List.getD_append _ _ _ _ hi
      have hgetDL : (q.mData ++ [e]).getD q.mData.length default = e := by
        rw [List.getD_append_right _ _ _ _ (le_refl _)]
        simp
      have hsyncA : PosMapSynced (q.mData ++ [e])
          (mapInsert q.mValToPos e q.mData.length) := by
        constructor
        · intro i hi
          rw [hlenA] at hi
          by_cases hiL : i = q.mData.length
          · rw [hiL, hgetDL, mapFind_mapInsert_self]
          · have hi2 : i < q.mData.length := by omega
            rw [hgetDA i hi2]
            have hne : q.mData.getD i default ≠ e := by
              intro hc
              have := hsync.1 i hi2
              rw [hc, hnone] at this
              exact Option.noConfusion this
            rw [mapFind_mapInsert_ne _ _ _ _ (fun hc => hne hc.symm)]
            exact hsync.1 i hi2
        · intro v p hf
          by_cases hv : v = e
          · rw [hv, mapFind_mapInsert_self] at hf
            have hp : p = q.mData.length := (Option.some.inj hf).symm
            subst hp
            exact ⟨by rw [hlenA]; omega, by rw [hv]; exact hgetDL⟩
          · rw [mapFind_mapInsert_ne _ _ _ _ (fun hc => hv hc.symm)] at hf
            rcases hsync.2 v p hf with ⟨hp, hvp⟩
            exact ⟨by rw [hlenA]; omega, by rw [hgetDA p hp]; exact hvp⟩
      have hknA : KeysNodup (mapInsert q.mValToPos e q.mData.length) := by
        unfold KeysNodup
        rw [mapInsert_keys_of_none _ _ _ hnone]
        have hni : e ∉ q.mValToPos.map Prod.fst := (mapFind_eq_none_iff _ _).mp hnone
        simp [List.nodup_append, hkn, hni]
        exact hkn
      have hres := updatePriority_WF hcl
        ⟨q.mData ++ [e], mapInsert q.mValToPos e q.mData.length, q.mLock⟩
        q.mData.length (by right; rw [hlenA]; omega) hsyncA hknA
        (by
          intro i hi hi0 hiL hpiL
          simp only at hi hiL hpiL ⊢
          rw [hlenA] at hi
          have hi2 : i < q.mData.length := by omega
          have hpi2 : GetParentPosition i < q.mData.length := by
            have := parent_lt i hi0
            omega
          rw [hgetDA i hi2, hgetDA _ hpi2]
          exact hheap i hi2 hi0)
        (by
          intro hL0 c hc hpc
          simp only at hc hpc ⊢
          rw [hlenA] at hc
          have := lt_of_parent_eq c _ (by
            intro hc0
            rw [hc0] at hpc
            unfold GetParentPosition at hpc
            omega) hpc
          unfold GetLeftChildPosition at *
          have hcge : q.mData.length * 2 + 1 ≤ c := by
            rcases (parent_eq_iff_child c _ (by omega)).mp hpc with h | h
            · unfold GetLeftChildPosition at h
              omega
            · unfold GetRightChildPosition at h
              omega
          omega)
      exact ⟨hres.1, hres.2.1, hres.2.2.1⟩

theorem Remove_WF {T : Type} [DecidableEq T] [Inhabited T] {comp : T → T → Bool}
    (hcl : CompLawful comp) (q : PriorityQueue T) (v : T) (q1 : PriorityQueue T)
    (hwf : QueueWF comp q) (h : Remove comp q = Except.ok (v, q1)) :
    QueueWF comp q1 := by
  rcases hwf with ⟨hheap, hsync, hkn⟩
  simp only [Remove] at h
  by_cases hlock : q.mLock ≥ 1
  · rw [if_pos hlock] at h
    exact absurd h (by simp)
  · rw [if_neg hlock] at h
    by_cases hemp : q.mValToPos.isEmpty = true
    · rw [if_pos hemp] at h
      rw [Except.ok.injEq, Prod.mk.injEq] at h
      rcases h with ⟨_, h2⟩
      subst h2
      exact ⟨hheap, hsync, hkn⟩
    · rw [if_neg hemp] at h
      rw [Except.ok.injEq, Prod.mk.injEq] at h
      rcases h with ⟨_, h2⟩
      subst h2
      have hmne : q.mValToPos ≠ [] := by
        intro hc
        rw [hc] at hemp
        exact hemp rfl
      have hL : 0 < q.mData.length := by
        cases hm : q.mValToPos with
        | nil => exact absurd hm hmne
        | cons hd tl =>
          have hfind : mapFind q.mValToPos hd.1 = some hd.2 := by
            rw [hm]
            simp [mapFind]
          rcases hsync.2 _ _ hfind with ⟨hp, _⟩
          omega
      have hL1 : q.mData.length - 1 < q.mData.length := by omega
      have hf0 := hsync.1 0 hL
      have hfL := hsync.1 (q.mData.length - 1) hL1
      have hsync1 := Swap_sync q 0 (q.mData.length - 1) hsync hL hL1
      have hkeys1 := Swap_keys q 0 (q.mData.length - 1) hf0 hfL
      have hkn1 : KeysNodup (Swap q 0 (q.mData.length - 1)).mValToPos := by
        unfold KeysNodup
        rw [hkeys1]
        exact hkn
      have hlen1 := Swap_length q 0 (q.mData.length - 1)
      have hgetD1 : ∀ i, (Swap q 0 (q.mData.length - 1)).mData.getD i default =
          if i = q.mData.length - 1 then q.mData.getD 0 default
          else if i = 0 then q.mData.getD (q.mData.length - 1) default
          else q.mData.getD i default :=
        fun i => Swap_getD q 0 (q.mData.length - 1) i hL hL1
      have hret : (Swap q 0 (q.mData.length - 1)).mData.getLast?.getD default =
          q.mData.getD 0 default := by
        rw [getLastD_eq_getD, hlen1, hgetD1, if_pos rfl]
      have hretfind : mapFind (Swap q 0 (q.mData.length - 1)).mValToPos
          ((Swap q 0 (q.mData.length - 1)).mData.getLast?.getD default) =
          some (q.mData.length - 1) := by
        have := hsync1.1 (q.mData.length - 1) (by rw [hlen1]; omega)
        rw [hgetD1, if_pos rfl] at this
        rw [hret]
        exact this
      have hdroplen : (Swap q 0 (q.mData.length - 1)).mData.dropLast.length =
          q.mData.length - 1 := by
        rw [List.length_dropLast, hlen1]
      have hsync2 : PosMapSynced (Swap q 0 (q.mData.length - 1)).mData.dropLast
          (mapErase (Swap q 0 (q.mData.length - 1)).mValToPos
            ((Swap q 0 (q.mData.length - 1)).mData.getLast?.getD default)) := by
        constructor
        · intro i hi
          rw [hdroplen] at hi
          rw [getD_dropLast _ _ _ (by rw [hlen1]; omega)]
          have hfi := hsync1.1 i (by rw [hlen1]; omega)
          have hne : (Swap q 0 (q.mData.length - 1)).mData.getD i default ≠
              (Swap q 0 (q.mData.length - 1)).mData.getLast?.getD default := by
            intro hc
            rw [hc, hretfind] at hfi
            have := Option.some.inj hfi
            omega
          rw [mapFind_mapErase_ne _ _ _ (fun hc => hne hc.symm)]
          exact hfi
        · intro u p hf
          by_cases hu : u = (Swap q 0 (q.mData.length - 1)).mData.getLast?.getD default
          · rw [hu, mapFind_mapErase_self _ _ hkn1] at hf
            exact absurd hf (by simp)
          · rw [mapFind_mapErase_ne _ _ _ (fun hc => hu hc.symm)] at hf
            rcases hsync1.2 u p hf with ⟨hp, hup⟩
            rw [hlen1] at hp
            have hpne : p ≠ q.mData.length - 1 := by
              intro hc
              apply hu
              rw [← hup, hc]
              rw [hret, hgetD1, if_pos rfl]
            refine ⟨by rw [hdroplen]; omega, ?_⟩
            rw [getD_dropLast _ _ _ (by rw [hlen1]; omega)]
            exact hup
      have hkn2 := mapErase_keysNodup _
        ((Swap q 0 (q.mData.length - 1)).mData.getLast?.getD default) hkn1
      have hres := updatePriority_WF hcl
        ⟨(Swap q 0 (q.mData.length - 1)).mData.dropLast,
         mapErase (Swap q 0 (q.mData.length - 1)).mValToPos
           ((Swap q 0 (q.mData.length - 1)).mData.getLast?.getD default),
         (Swap q 0 (q.mData.length - 1)).mLock⟩ 0 (Or.inl rfl) hsync2 hkn2
        (by
          intro i hi hi0 _ hpi0
          simp only at hi ⊢
          rw [hdroplen] at hi
          have hpi : GetParentPosition i < i := parent_lt i hi0
          rw [getD_dropLast _ _ _ (by rw [hlen1]; omega),
            getD_dropLast _ _ _ (by rw [hlen1]; omega)]
          rw [hgetD1, if_neg (by omega), if_neg hpi0,
            hgetD1, if_neg (by omega), if_neg hi0]
          exact hheap i (by omega) hi0)
        (fun h0 => absurd rfl h0)
      exact ⟨hres.1, hres.2.1, hres.2.2.1⟩

theorem Update_WF {T : Type} [DecidableEq T] [Inhabited T] {comp : T → T → Bool}
    (hcl : CompLawful comp) (q : PriorityQueue T) (v : T) (pos : Nat)
    (newVal : T) (b : Bool) (q1 : PriorityQueue T)
    (hwf : QueueWF comp q) (hfindv : mapFind q.mValToPos v = some pos)
    (h : Update comp q pos newVal = (b, q1)) : QueueWF comp q1 := by
  rcases hwf with ⟨hheap, hsync, hkn⟩
  rcases hsync.2 v pos hfindv with ⟨hposlt, hvdata⟩
  simp only [Update] at h
  by_cases hfound : (mapFind q.mValToPos newVal).isSome = true
  · rw [if_pos hfound] at h
    rw [Prod.mk.injEq] at h
    rcases h with ⟨_, h2⟩
    subst h2
    exact ⟨hheap, hsync, hkn⟩
  · rw [if_neg hfound] at h
    rw [Prod.mk.injEq] at h
    rcases h with ⟨_, h2⟩
    subst h2
    have hnone : mapFind q.mValToPos newVal = none := by
      cases hx : mapFind q.mValToPos newVal
      · rfl
      · rw [hx] at hfound
        exact absurd rfl hfound
    have hvne : v ≠ newVal := by
      intro hc
      rw [hc, hnone] at hfindv
      exact Option.noConfusion hfindv
    rw [hvdata]
    have hsetlen : (q.mData.set pos newVal).length = q.mData.length := by simp
    have hsetD : ∀ i, i ≠ pos → (q.mData.set pos newVal).getD i default =
        q.mData.getD i default :=
      fun i hi => getD_set_ne_g _ _ _ _ _ (fun hc => hi hc.symm)
    have hsetP : (q.mData.set pos newVal).getD pos default = newVal :=
      getD_set_self_g _ _ _ _ hposlt
    have hsyncB : PosMapSynced (q.mData.set pos newVal)
        (mapInsert (mapErase q.mValToPos v) newVal pos) := by
      constructor
      · intro i hi
        rw [hsetlen] at hi
        by_cases hip : i = pos
        · rw [hip, hsetP, mapFind_mapInsert_self]
        · rw [hsetD i hip]
          have hfi := hsync.1 i hi
          have hne1 : q.mData.getD i default ≠ newVal := by
            intro hc
            rw [hc, hnone] at hfi
            exact Option.noConfusion hfi
          have hne2 : q.mData.getD i default ≠ v := by
            intro hc
            rw [hc, hfindv] at hfi
            exact hip (Option.some.inj hfi).symm
          rw [mapFind_mapInsert_ne _ _ _ _ (fun hc => hne1 hc.symm),
            mapFind_mapErase_ne _ _ _ (fun hc => hne2 hc.symm)]
          exact hfi
      · intro u p hf
        by_cases hu : u = newVal
        · rw [hu, mapFind_mapInsert_self] at hf
          have hp : p = pos := (Option.some.inj hf).symm
          subst hp
          exact ⟨by rw [hsetlen]; exact hposlt, by rw [hsetP, hu]⟩
        · rw [mapFind_mapInsert_ne _ _ _ _ (fun hc => hu hc.symm)] at hf
          by_cases huv : u = v
          · rw [huv, mapFind_mapErase_self _ _ hkn] at hf
            exact absurd hf (by simp)
          · rw [mapFind_mapErase_ne _ _ _ (fun hc => huv hc.symm)] at hf
            rcases hsync.2 u p hf with ⟨hp, hup⟩
            have hppos : p ≠ pos := by
              intro hc
              rw [hc] at hup
              rw [hvdata] at hup
              exact huv hup.symm
            exact ⟨by rw [hsetlen]; exact hp, by rw [hsetD p hppos]; exact hup⟩
    have hknB : KeysNodup (mapInsert (mapErase q.mValToPos v) newVal pos) := by
      unfold KeysNodup
      have hnone2 : mapFind (mapErase q.mValToPos v) newVal = none := by
        rw [mapFind_mapErase_ne _ _ _ hvne]
        exact hnone
      rw [mapInsert_keys_of_none _ _ _ hnone2]
      have hkn3 := mapErase_keysNodup q.mValToPos v hkn
      have hni : newVal ∉ (mapErase q.mValToPos v).map Prod.fst :=
        (mapFind_eq_none_iff _ _).mp hnone2
      simp [List.nodup_append, hkn3, hni]
      exact hkn3
    have hres := updatePriority_WF hcl
      ⟨q.mData.set pos newVal, mapInsert (mapErase q.mValToPos v) newVal pos, q.mLock⟩
      pos (by right; rw [hsetlen]; exact hposlt) hsyncB hknB
      (by
        intro i hi hi0 hip hpip
        simp only at hi hip hpip ⊢
        rw [hsetlen] at hi
        have hpi : GetParentPosition i < i := parent_lt i hi0
        rw [hsetD i hip, hsetD _ hpip]
        exact hheap i hi hi0)
      (by
        intro hpos0 c hc hpc
        simp only at hc hpc ⊢
        rw [hsetlen] at hc
        have hposc : pos < c := lt_of_parent_eq c pos (by
          intro hc0
          rw [hc0] at hpc
          unfold GetParentPosition at hpc
          omega) hpc
        have hc0 : c ≠ 0 := by omega
        have hppp : GetParentPosition pos < pos := parent_lt pos hpos0
        rw [hsetD _ (by omega), hsetD c (by omega)]
        have h1 := hheap pos hposlt hpos0
        have h2 := hheap c hc hc0
        rw [hpc] at h2
        rw [hvdata] at h1
        exact hcl.2.2 _ _ _ (by rw [← hvdata] at h1; exact h1) h2)
    exact ⟨hres.1, hres.2.1, hres.2.2.1⟩

theorem queueWF_of_reachable {T : Type} [DecidableEq T] [Inhabited T]
    {comp : T → T → Bool} (hcl : CompLawful comp) (q0 : PriorityQueue T)
    (h : Reachable comp q0) : QueueWF comp q0 := by
  induction h with
  | init =>
    refine ⟨?_, ⟨?_, ?_⟩, ?_⟩
    · intro i hi _
      simp at hi
    · intro i hi
      simp at hi
    · intro v p hf
      simp [mapFind] at hf
    · simp [KeysNodup]
  | add q e q1 hr heq ih => exact Add_WF hcl q e q1 ih heq
  | remove q v q1 hr heq ih => exact Remove_WF hcl q v q1 ih heq
  | clearStep q q1 hr heq ih =>
    simp only [Clear] at heq
    by_cases hlock : q.mLock ≥ 1
    · rw [if_pos hlock] at heq
      exact absurd heq (by simp)
    · rw [if_neg hlock] at heq
      rw [Except.ok.injEq] at heq
      subst heq
      refine ⟨?_, ⟨?_, ?_⟩, ?_⟩
      · intro i hi _
        simp at hi
      · intro i hi
        simp at hi
      · intro v p hf
        simp [mapFind] at hf
      · simp [KeysNodup]
  | update q v pos newVal b q1 hr hfind heq ih =>
    exact Update_WF hcl q v pos newVal b q1 ih hfind heq

theorem compLawful_natLess : CompLawful natLess := by
  refine ⟨?_, ?_, ?_⟩
  · intro a
    simp [natLess]
  · intro a b c h1 h2
    simp only [natLess, decide_eq_true_eq] at *
    omega
  · intro a b c h1 h2
    simp only [natLess, decide_eq_false_iff_not] at *
    omega

/-- Claim C3 — confirmed.  After any sequence of `Add` (Insert),
`Remove` (ExtractTop), `Clear`, and scoped `ElementHandle::Update` operations
performed through the public interface (with a lawful strict-weak-order
comparator), both structural invariants hold: for every non-root slot the
parent is never lower priority than the element at that slot, and the
position map is exactly in sync with the heap array (every slot's value maps
to that slot, and every map entry points at the slot actually holding its
key). -/
theorem c3_invariants {T : Type} [DecidableEq T] [Inhabited T]
    (comp : T → T → Bool) (hcl : CompLawful comp) (q : PriorityQueue T)
    (h : Reachable comp q) :
    HeapInvariant comp q.mData ∧ PosMapSynced q.mData q.mValToPos := by
  have hwf := queueWF_of_reachable hcl q h
  exact ⟨hwf.1, hwf.2.1⟩

/-- Witness for `c3_invariants`: a concrete queue reached by two insertions. -/
theorem c3_invariants_witness :
    HeapInvariant natLess [5, 3] ∧ PosMapSynced [5, 3] [(5, 0), (3, 1)] := by
  have h0 : Reachable natLess (⟨[], [], 0⟩ : PriorityQueue Nat) := Reachable.init
  have h1 : Reachable natLess (⟨[5], [(5, 0)], 0⟩ : PriorityQueue Nat) :=
    Reachable.add _ 5 _ h0 rfl
  have h2 : Reachable natLess (⟨[5, 3], [(5, 0), (3, 1)], 0⟩ : PriorityQueue Nat) :=
    Reachable.add _ 3 _ h1 rfl
  exact c3_invariants natLess compLawful_natLess _ h2

end PQModel

namespace GraphModel

/-- `Graph::VertexWeight` (Graph.h): a vertex index paired with a
`WeightType` value. -/
structure VertexWeight where
  vI : Nat
  w : Int
deriving DecidableEq, Repr

instance : Inhabited VertexWeight := ⟨⟨0, 0⟩⟩

/-- The smaller-`w` in-range child of node `i` within the prefix of length
`n` (left child on ties), used by the sift-down below. -/
def sdChild (l : List VertexWeight) (i n : Nat) : Nat :=
  if 2 * i + 2 ≥ n then 2 * i + 1
  else if (l.getD (2 * i + 1) default).w < (l.getD (2 * i + 2) default).w then
    2 * i + 1
  else 2 * i + 2

/-- Weight stored in the compact edge store for an unordered vertex pair,
as the queries read it: `mEdgesCompact[GetIndexForCompact(max, min)]`. -/
def cw (g : Graph V) (u v : Nat) : Int :=
  g.mEdgesCompact.getD
    (GetIndexForCompact g.mVertices.length (max u v) (min u v)) 0

/-- Adjacency as the queries see it after `UpdateEdges`: two distinct
in-range vertices whose stored weight differs from the sentinel
`mMaxValue`. -/
def adjB (g : Graph V) (u v : Nat) : Bool :=
  decide (u ≠ v) && decide (u < g.mVertices.length) &&
    decide (v < g.mVertices.length) && decide (cw g u v ≠ g.mMaxValue)

/-- A walk: a nonempty vertex sequence with every consecutive pair
adjacent. -/
def isWalkB (g : Graph V) : List Nat → Bool
  | [] => false
  | [v] => decide (v < g.mVertices.length)
  | u :: v :: rest => adjB g u v && isWalkB g (v :: rest)

theorem sdChild_cases (l : List VertexWeight) (i n : Nat) :
    sdChild l i n = 2 * i + 1 ∨ sdChild l i n = 2 * i + 2 := by
  unfold sdChild
  split_ifs <;> simp

theorem map_vI_set (l : List VertexWeight) (i : Nat) (w : Int) :
    (l.set i ⟨(l.getD i default).vI, w⟩).map (·.vI) = l.map (·.vI) := by
  apply List.ext_getElem
  · simp
  · intro j h1 h2
    simp only [List.getElem_map]
    rw [List.getElem_set]
    split
    · next h =>
      subst h
      rw [List.getD_eq_getElem _ _ (by simpa using h2)]
    · rfl

theorem foldr_min_le_init : ∀ (L : List Int) (a : Int), L.foldr min a ≤ a := by
  intro L
  induction L with
  | nil => intro a; exact le_refl a
  | cons x L' ih => intro a; exact le_trans (min_le_right x _) (ih a)

theorem foldr_min_attained :
    ∀ (L : List Int) (a : Int), L.foldr min a = a ∨ L.foldr min a ∈ L := by
  intro L
  induction L with
  | nil => intro a; exact Or.inl rfl
  | cons z L' ih =>
    intro a
    rcases le_total z (L'.foldr min a) with h | h
    · right
      rw [List.foldr_cons, min_eq_left h]
      exact List.mem_cons_self ..
    · rcases ih a with h2 | h2
      · left
        rw [List.foldr_cons, min_eq_right h, h2]
      · right
        rw [List.foldr_cons, min_eq_right h]
        exact List.mem_cons_of_mem _ h2

theorem isWalkB_ne_nil (g : Graph V) (q : List Nat)
    (h : isWalkB g q = true) : q ≠ [] := by
  intro hc
  rw [hc] at h
  simp [isWalkB] at h

/-- Undirected reachability through an explicit list of vertex pairs (used
to express what a spanning edge set is). -/
inductive EReach (E : List (Nat × Nat)) : Nat → Nat → Prop
  | refl (u : Nat) : EReach E u u
  | step {u v x : Nat} : EReach E u v → ((v, x) ∈ E ∨ (x, v) ∈ E) →
      EReach E u x

theorem ereach_cut_crossing {E : List (Nat × Nat)} {u v : Nat}
    (P : Nat → Prop) (h : EReach E u v) (hu : P u) (hv : ¬P v) :
    ∃ x y, ((x, y) ∈ E ∨ (y, x) ∈ E) ∧ P x ∧ ¬P y := by
  induction h with
  | refl => exact absurd hu hv
  | @step v2 x2 h e ih =>
    by_cases hmid : P v2
    · exact ⟨v2, x2, e, hmid, hv⟩
    · exact ih hmid

/-- A walk through an explicit list of vertex pairs: a nonempty vertex
sequence whose consecutive pairs occur in the list (in either order). -/
def EWalk (E : List (Nat × Nat)) : List Nat → Prop
  | [] => False
  | [_] => True
  | x :: y :: r => ((x, y) ∈ E ∨ (y, x) ∈ E) ∧ EWalk E (y :: r)

theorem ewalk_cons (E : List (Nat × Nat)) (x y : Nat) (r : List Nat) :
    EWalk E (x :: y :: r) ↔
      ((x, y) ∈ E ∨ (y, x) ∈ E) ∧ EWalk E (y :: r) := Iff.rfl

/-- The relaxation candidates Prim offers a frontier vertex `u`: the plain
edge weights from settled vertices (non-cumulative rule). -/
def relaxCandsP (g : Graph V) (S : List Nat) (u : Nat) : List Int :=
  S.filterMap (fun s =>
    if cw g s u ≠ g.mMaxValue then some (cw g s u) else none)

/-- The key Prim maintains for a frontier vertex `u`: the sentinel-capped
minimum edge weight from any settled vertex. -/
def KeyOfP (g : Graph V) (S : List Nat) (u : Nat) : Int :=
  (relaxCandsP g S u).foldr min g.mMaxValue

theorem KeyOfP_le_max (g : Graph V) (S : List Nat) (u : Nat) :
    KeyOfP g S u ≤ g.mMaxValue := foldr_min_le_init _ _

theorem KeyOfP_attained (g : Graph V) (S : List Nat) (u : Nat)
    (h : KeyOfP g S u ≠ g.mMaxValue) :
    ∃ s ∈ S, cw g s u ≠ g.mMaxValue ∧ KeyOfP g S u = cw g s u := by
  rcases foldr_min_attained (relaxCandsP g S u) g.mMaxValue with h1 | h1
  · exact absurd h1 h
  · unfold relaxCandsP at h1
    rw [List.mem_filterMap] at h1
    obtain ⟨s, hs, hse⟩ := h1
    by_cases hcw : cw g s u ≠ g.mMaxValue
    · rw [if_pos hcw] at hse
      exact ⟨s, hs, hcw, (Option.some.inj hse).symm⟩
    · rw [if_neg hcw] at hse
      exact Option.noConfusion hse

end GraphModel
